import Mathlib

/-!
# felixge/profiler-simulator: a shallow embedding of `main.go`

The Go program simulates four profilers over a ground-truth execution trace.
`time.Duration` is a signed 64-bit count of nanoseconds; it is modelled as an
`Int` and every Go addition or subtraction is followed by `wrap64`, the
two's-complement reduction Go performs on overflow.  A `[]string` is modelled
as `Option (List String)`: `none` is the nil slice, `some l` a non-nil slice
(`reflect.DeepEqual` tells a nil slice from an empty non-nil one).
Pointers are modelled by values: the only in-place mutation of the program,
`st.Duration += ...` in `Profile.Add`, acts on copies the profile owns.
The two loops without a bound, in `Repeat` and in the "Node.js Wallclock
Profiler", take a number of iterations and answer `none` when they have not
returned within it.  The library routine `sort.Slice` is modelled by an insertion
sort driven by the `less` closure of `Profile.Sort`.
-/

namespace ProfilerSim

/-! ## Definitions -/

/-- Two's-complement reduction to the int64 range `[-2^63, 2^63)`. -/
def wrap64 (x : Int) : Int :=
  (x + 9223372036854775808) % 18446744073709551616 - 9223372036854775808

/-- The constant `time.Millisecond`, in nanoseconds. -/
def Millisecond : Int := 1000000

/-- The constant `time.Second`, in nanoseconds. -/
def Second : Int := 1000000000

/-- The Go struct `StackTrace`; `Frames = none` is the nil slice. -/
structure StackTrace where
  Duration : Int
  Frames : Option (List String)
  CPU : Bool
deriving DecidableEq, Repr

/-- The method `StackTrace.Equal`:
`reflect.DeepEqual(s.Frames, o.Frames) && s.CPU == o.CPU`. -/
def StackTrace.Equal (s o : StackTrace) : Bool :=
  decide (s.Frames = o.Frames) && (s.CPU == o.CPU)

/-- The method `StackTrace.Copy`: `make([]string, len(s.Frames))` is never nil. -/
def StackTrace.Copy (s : StackTrace) : StackTrace :=
  { Duration := s.Duration, CPU := s.CPU, Frames := some (s.Frames.getD []) }

/-- The assignment `s.Duration = d`. -/
def StackTrace.setDuration (s : StackTrace) (d : Int) : StackTrace :=
  { s with Duration := d }

/-- The Go struct `Profile`; its field `stacks` is written `Stacks` (`stacks` is a
reserved word of the library). -/
structure Profile where
  Stacks : List StackTrace
deriving DecidableEq, Repr

/-- The Go struct `ExecutionTrace`. -/
structure ExecutionTrace where
  Calls : List StackTrace
deriving DecidableEq, Repr

/-- The loop of `Profile.Add` over `p.Stacks`: the first element `Equal` to the
sample absorbs its duration (int64 addition); with no such element a copy of
the sample is appended. -/
def addStacks : List StackTrace → StackTrace → List StackTrace
  | [], sample => [sample.Copy]
  | st :: rest, sample =>
    if st.Equal sample then
      st.setDuration (wrap64 (st.Duration + sample.Duration)) :: rest
    else st :: addStacks rest sample

/-- The method `Profile.Add`. -/
def Profile.Add (p : Profile) (sample : StackTrace) : Profile :=
  ⟨addStacks p.Stacks sample⟩

/-- The loop of `ExecutionTrace.Sample`, with the running timestamp `ts`. -/
def sampleFrom : Int → List StackTrace → Int → Option StackTrace
  | _, [], _ => none
  | ts, st :: rest, offset =>
    if offset ≤ wrap64 (ts + st.Duration) then some st
    else sampleFrom (wrap64 (ts + st.Duration)) rest offset

/-- The method `ExecutionTrace.Sample`; `none` is the nil result. -/
def ExecutionTrace.Sample (e : ExecutionTrace) (offset : Int) : Option StackTrace :=
  sampleFrom 0 e.Calls offset

/-- The "Perfect Wallclock Profiler": every segment is added. -/
def perfectWallclock (e : ExecutionTrace) : Profile :=
  e.Calls.foldl (fun p sample => p.Add sample) ⟨[]⟩

/-- The "Perfect CPU Profiler": off-CPU segments are skipped. -/
def perfectCPU (e : ExecutionTrace) : Profile :=
  e.Calls.foldl (fun p sample => if !sample.CPU then p else p.Add sample) ⟨[]⟩

/-- The sampling period of the "Node.js Wallclock Profiler", `time.Second / 99`. -/
def nodePeriod : Int := Second / 99

/-- The loop of the "Node.js Wallclock Profiler".  The Go loop has no bound, so
the model takes a number of iterations `fuel` and answers `none` when they do
not suffice.  `add` stands for the call `p.Add(sample)`: it is `Profile.Add`
for the profiler itself and list extension for the log of the samples added. -/
def nodeLoop {σ : Type} (add : σ → StackTrace → σ) (e : ExecutionTrace) :
    Nat → Int → σ → Option σ
  | 0, _, _ => none
  | fuel + 1, offset, p =>
    match e.Sample (wrap64 (offset + nodePeriod)) with
    | none => some p
    | some sample =>
      if sample.CPU then
        nodeLoop add e fuel (wrap64 (offset + nodePeriod))
          (add p (sample.Copy.setDuration nodePeriod))
      else nodeLoop add e fuel (wrap64 (offset + nodePeriod)) p

/-- The "Node.js Wallclock Profiler", run for at most `fuel` probes. -/
def nodeProfile (fuel : Nat) (e : ExecutionTrace) : Option Profile :=
  nodeLoop Profile.Add e fuel 0 ⟨[]⟩

/-- The samples the "Node.js Wallclock Profiler" passes to `Add`, in order. -/
def nodeSamples (fuel : Nat) (e : ExecutionTrace) : Option (List StackTrace) :=
  nodeLoop (fun l s => l ++ [s]) e fuel 0 []

/-- The accounting quantum of the "Go CPU Profiler", `4 * time.Millisecond`. -/
def jiffy : Int := 4 * Millisecond

/-- The sampling period of the "Go CPU Profiler", `time.Second / 100`. -/
def goPeriod : Int := Second / 100

/-- The inner loop `for cpuRequest > 0` of the "Go CPU Profiler" on the segment
`st`; it returns the sink and the accumulator `cpuDuration`.  `add` stands for
the call `p.Add(sample)`. -/
def jiffyLoop {σ : Type} (add : σ → StackTrace → σ) (st : StackTrace)
    (cpuRequest cpuDuration : Int) (p : σ) : σ × Int :=
  if 0 < cpuRequest then
    if cpuRequest > jiffy then
      if wrap64 (cpuDuration + jiffy) ≥ goPeriod then
        jiffyLoop add st (wrap64 (cpuRequest - jiffy))
          (wrap64 (wrap64 (cpuDuration + jiffy) - goPeriod))
          (add p (st.Copy.setDuration goPeriod))
      else
        jiffyLoop add st (wrap64 (cpuRequest - jiffy)) (wrap64 (cpuDuration + jiffy)) p
    else
      if wrap64 (cpuDuration + cpuRequest) ≥ goPeriod then
        jiffyLoop add st 0 (wrap64 (wrap64 (cpuDuration + cpuRequest) - goPeriod))
          (add p (st.Copy.setDuration goPeriod))
      else
        jiffyLoop add st 0 (wrap64 (cpuDuration + cpuRequest)) p
  else (p, cpuDuration)
termination_by cpuRequest.toNat
decreasing_by
  all_goals simp_wf
  all_goals unfold wrap64 jiffy Millisecond at *
  all_goals omega

/-- One iteration of the outer loop `for _, st := range e.Calls` of the
"Go CPU Profiler" on the state (sink, `cpuDuration`). -/
def goStep {σ : Type} (add : σ → StackTrace → σ) (state : σ × Int) (st : StackTrace) :
    σ × Int :=
  if !st.CPU then state else jiffyLoop add st st.Duration state.2 state.1

/-- The "Go CPU Profiler". -/
def goProfile (e : ExecutionTrace) : Profile :=
  (e.Calls.foldl (goStep Profile.Add) (⟨[]⟩, 0)).1

/-- The samples the "Go CPU Profiler" passes to `Add`, in order. -/
def goSamples (e : ExecutionTrace) : List StackTrace :=
  (e.Calls.foldl (goStep (fun l s => l ++ [s])) ([], 0)).1

/-- Exact (unbounded) sum of the durations of a list of stack traces. -/
def totalDur (l : List StackTrace) : Int := (l.map (fun s => s.Duration)).sum

/-- Exact sum of the absolute values of the durations. -/
def absTotal (l : List StackTrace) : Int := (l.map (fun s => |s.Duration|)).sum

/-- The three segments of `main`: 13 ms and 25 ms on CPU, 62 ms off CPU. -/
def demoTrace : ExecutionTrace :=
  ⟨[⟨13 * Millisecond, some ["main", "workA"], true⟩,
    ⟨25 * Millisecond, some ["main", "workB"], true⟩,
    ⟨62 * Millisecond, some ["main", "sleep"], false⟩]⟩

/-- A trace of two on-CPU segments `main;workA` of 2^62 ns each. -/
def overflowTrace : ExecutionTrace :=
  ⟨[⟨4611686018427387904, some ["main", "workA"], true⟩,
    ⟨4611686018427387904, some ["main", "workA"], true⟩]⟩

/-- The uniqueness invariant of a profile: no two elements at different
positions are `Equal`. -/
def Profile.Unique (p : Profile) : Prop :=
  p.Stacks.Pairwise (fun a b => a.Equal b = false)

instance (p : Profile) : Decidable p.Unique := by
  unfold Profile.Unique
  infer_instance

/-- A sample without frames, given by the nil slice. -/
def nilSample : StackTrace := ⟨1, none, false⟩

/-- The stack identity of a stack trace: what `Equal` compares. -/
def stackKey (s : StackTrace) : Option (List String) × Bool := (s.Frames, s.CPU)

/-- Two rounds of the three segments of `main`. -/
def demoTwice : ExecutionTrace := ⟨demoTrace.Calls ++ demoTrace.Calls⟩

/-- The chunk-free reference for one segment of the "Go CPU Profiler": an on-CPU
segment of duration d, met with the accumulator acc, adds floor((acc + d) / 10ms)
samples of one period with the segment's identity and leaves (acc + d) mod 10ms
in the accumulator; an off-CPU segment changes nothing. -/
def chunkFreeStep {σ : Type} (add : σ → StackTrace → σ) (state : σ × Int)
    (st : StackTrace) : σ × Int :=
  if !st.CPU then state
  else
    ((fun q => add q (st.Copy.setDuration goPeriod))^[
        ((state.2 + st.Duration) / goPeriod).toNat] state.1,
      (state.2 + st.Duration) % goPeriod)

/-- Exact sum of the durations of the on-CPU segments. -/
def cpuTotal (l : List StackTrace) : Int := totalDur (l.filter (fun s => s.CPU))

/-- A trace of three on-CPU segments `main;workA` of 2^62 ns each. -/
def overflowTrace3 : ExecutionTrace :=
  ⟨[⟨4611686018427387904, some ["main", "workA"], true⟩,
    ⟨4611686018427387904, some ["main", "workA"], true⟩,
    ⟨4611686018427387904, some ["main", "workA"], true⟩]⟩

/-- A trace of one on-CPU segment `main` of 913113840779 periods of the
"Node.js Wallclock Profiler", the largest multiple of the period below 2^63 ns. -/
def nodeOverflowTrace : ExecutionTrace :=
  ⟨[⟨9223372036847086790, some ["main"], true⟩]⟩

/-- One run of the inner loop `for _, st := range list` of `Repeat` over the
segments still to visit: each is appended to `calls` and added to `offset`
(int64 addition); the flag tells whether `offset >= duration` was met, which is
where `Repeat` returns. -/
def repeatPass (duration : Int) : List StackTrace → List StackTrace → Int →
    List StackTrace × Int × Bool
  | [], calls, offset => (calls, offset, false)
  | st :: rest, calls, offset =>
    if wrap64 (offset + st.Duration) ≥ duration then
      (calls ++ [st], wrap64 (offset + st.Duration), true)
    else repeatPass duration rest (calls ++ [st]) (wrap64 (offset + st.Duration))

/-- The outer loop `for { ... }` of `Repeat`.  The Go loop has no bound, so the
model takes the number `fuel` of runs over the list and answers `none` when
`Repeat` has not returned within them. -/
def repeatLoop (duration : Int) (list : List StackTrace) :
    Nat → List StackTrace → Int → Option ExecutionTrace
  | 0, _, _ => none
  | fuel + 1, calls, offset =>
    if (repeatPass duration list calls offset).2.2 then
      some ⟨(repeatPass duration list calls offset).1⟩
    else
      repeatLoop duration list fuel (repeatPass duration list calls offset).1
        (repeatPass duration list calls offset).2.1

/-- The function `Repeat`, run for at most `fuel` rounds over the list. -/
def Repeat (fuel : Nat) (duration : Int) (list : List StackTrace) : Option ExecutionTrace :=
  repeatLoop duration list fuel [] 0

/-- The largest duration of a list of segments with positive durations. -/
def maxDur (l : List StackTrace) : Int := (l.map (fun s => s.Duration)).foldr max 0

/-- The state of `Repeat` between two appends: `offset` is the exact total of
`calls` and is not negative, `calls` is the list tiled in order, and no
non-empty initial part of `calls` has reached the target `D`. -/
def RepeatInv (D : Int) (list calls : List StackTrace) (offset : Int) : Prop :=
  offset = totalDur calls ∧ 0 ≤ offset ∧
    (∀ i, i < calls.length → calls[i]? = list[i % list.length]?) ∧
    (∀ m, 1 ≤ m → m ≤ calls.length → totalDur (calls.take m) < D)

/-- What `Repeat` returns: the list tiled in order, cut at the least positive
number of segments whose total reaches the target `D`. -/
def RepeatResult (D : Int) (list calls : List StackTrace) : Prop :=
  1 ≤ calls.length ∧
    (∀ i, i < calls.length → calls[i]? = list[i % list.length]?) ∧
    D ≤ totalDur calls ∧
    (∀ m, 1 ≤ m → m < calls.length → totalDur (calls.take m) < D)

/-- A pool of one on-CPU segment `main` of 2^62 ns. -/
def stuckPool : List StackTrace := [⟨4611686018427387904, some ["main"], true⟩]

/-- Modelled from the spec: the library routine `sort.Slice` of Go, which
`Profile.Sort` calls and which is not part of the repository.  The spec says of
`Sort` that it "reorders elements by duration descending, in place" and leaves
the order of elements with equal durations open; the model sorts by insertion
with respect to the closure `less`, putting `a` before `b` unless `less b a`. -/
def sortSlice (less : StackTrace → StackTrace → Bool) (l : List StackTrace) :
    List StackTrace :=
  l.insertionSort (fun a b => less b a = false)

/-- The method `Profile.Sort`: `sort.Slice` with the closure
`p.stacks[i].Duration > p.stacks[j].Duration`. -/
def Profile.Sort (p : Profile) : Profile :=
  ⟨sortSlice (fun a b => decide (a.Duration > b.Duration)) p.Stacks⟩

/-- The stack identity as the spec words it: the frame sequence, element by
element, and the cpu flag.  The nil slice and the empty slice are the same
sequence here, while `Equal` tells them apart. -/
def frameKey (s : StackTrace) : List String × Bool := (s.Frames.getD [], s.CPU)

/-- The position, counted from the segment at hand, of the segment the loop of
`ExecutionTrace.Sample` returns: the same scan as `sampleFrom`, recording the
index instead of the segment. -/
def sampleIndexFrom : Int → List StackTrace → Int → Option Nat
  | _, [], _ => none
  | ts, st :: rest, offset =>
    if offset ≤ wrap64 (ts + st.Duration) then some 0
    else (sampleIndexFrom (wrap64 (ts + st.Duration)) rest offset).map (fun i => i + 1)

/-- The index in `e.Calls` of the segment `e.Sample offset` returns. -/
def ExecutionTrace.SampleIndex (e : ExecutionTrace) (offset : Int) : Option Nat :=
  sampleIndexFrom 0 e.Calls offset

/-- A trace of an on-CPU segment `main;workA` of 10 ms followed by an on-CPU
segment `main;workB` of 1 ms. -/
def shortSegmentTrace : ExecutionTrace :=
  ⟨[⟨10 * Millisecond, some ["main", "workA"], true⟩,
    ⟨1 * Millisecond, some ["main", "workB"], true⟩]⟩

/-- The sample recorded by a probe of the "Node.js Wallclock Profiler" at the
offset `k * period`, if any: a copy, with duration one period, of the segment
`Sample` finds there, when that segment is on CPU. -/
def probeSample (e : ExecutionTrace) (k : Nat) : Option StackTrace :=
  match e.Sample (k * nodePeriod) with
  | some s => if s.CPU then some (s.Copy.setDuration nodePeriod) else none
  | none => none

/-- The samples recorded by the probes at `k * period` for `k = 1 .. K`, in order. -/
def probeSamples (e : ExecutionTrace) (K : Nat) : List StackTrace :=
  (List.range' 1 K).filterMap (probeSample e)

/-- The number of probes at `k * period`, `k = 1 .. K`, for which `Sample` finds
an on-CPU segment with the stack identity of the profile element `x` (the
identity of the segment's copy). -/
def probeHits (e : ExecutionTrace) (K : Nat) (x : StackTrace) : Nat :=
  ((List.range' 1 K).filter (fun (k : Nat) =>
    match e.Sample ((k : Int) * nodePeriod) with
    | some s => s.CPU && s.Copy.Equal x
    | none => false)).length

/-- The position of the segment for which the probe of the
"Node.js Wallclock Profiler" at the offset `k * period` records a sample, if any:
the position `Sample` resolves to, when the segment there is on CPU. -/
def probeIndex (e : ExecutionTrace) (k : Nat) : Option Nat :=
  match e.SampleIndex ((k : Int) * nodePeriod) with
  | some j =>
    match e.Calls[j]? with
    | some s => if s.CPU then some j else none
    | none => none
  | none => none

/-- The positions of the segments for which the probes at `k * period`,
`k = 1 .. K`, record a sample, in order: segment `i` has as many samples recorded
as `i` occurs in this list. -/
def probeIndices (e : ExecutionTrace) (K : Nat) : List Nat :=
  (List.range' 1 K).filterMap (probeIndex e)

/-- The sample recorded for the segment at position `j`: its copy with duration
one period. -/
def sampleAt (e : ExecutionTrace) (j : Nat) : Option StackTrace :=
  (e.Calls[j]?).map (fun s => s.Copy.setDuration nodePeriod)

/-- The sample recorded by a probe of the "Node.js Wallclock Profiler" whose
int64 offset after `k` additions of the period is `wrap64 (k * period)`. -/
def wrappedProbeSample (e : ExecutionTrace) (k : Nat) : Option StackTrace :=
  match e.Sample (wrap64 ((k : Int) * nodePeriod)) with
  | some s => if s.CPU then some (s.Copy.setDuration nodePeriod) else none
  | none => none

/-- A trace of an on-CPU segment `main;a` of 5 ms followed by an off-CPU segment
`main;b` of 9223372036842086790 ns; it lasts 913113840779 periods of the
"Node.js Wallclock Profiler", less than 2^63 ns. -/
def wrapProbeTrace : ExecutionTrace :=
  ⟨[⟨5 * Millisecond, some ["main", "a"], true⟩,
    ⟨9223372036842086790, some ["main", "b"], false⟩]⟩

/-! ## Lemmas -/

theorem wrap64_of_abs_lt {x : Int} (h : |x| < 9223372036854775808) : wrap64 x = x := by
  have h1 := abs_lt.mp h
  unfold wrap64
  omega

theorem wrap64_add_wrap64 (a b : Int) : wrap64 (wrap64 a + b) = wrap64 (a + b) := by
  unfold wrap64
  omega

@[simp] theorem totalDur_nil : totalDur [] = 0 := rfl

@[simp] theorem totalDur_cons (s : StackTrace) (l : List StackTrace) :
    totalDur (s :: l) = s.Duration + totalDur l := by
  simp [totalDur]

@[simp] theorem absTotal_nil : absTotal [] = 0 := rfl

@[simp] theorem absTotal_cons (s : StackTrace) (l : List StackTrace) :
    absTotal (s :: l) = |s.Duration| + absTotal l := by
  simp [absTotal]

theorem totalDur_append (l m : List StackTrace) :
    totalDur (l ++ m) = totalDur l + totalDur m := by
  simp [totalDur]

theorem absTotal_append (l m : List StackTrace) :
    absTotal (l ++ m) = absTotal l + absTotal m := by
  simp [absTotal]

theorem absTotal_nonneg (l : List StackTrace) : 0 ≤ absTotal l := by
  induction l with
  | nil => simp
  | cons s l ih =>
    have := abs_nonneg s.Duration
    simp only [absTotal_cons]
    omega

theorem absTotal_eq_totalDur {l : List StackTrace} (h : ∀ s ∈ l, 0 ≤ s.Duration) :
    absTotal l = totalDur l := by
  induction l with
  | nil => simp
  | cons s l ih =>
    have h1 : 0 ≤ s.Duration := h s (List.mem_cons_self _ _)
    have h2 := ih (fun t ht => h t (List.mem_cons_of_mem _ ht))
    simp only [absTotal_cons, totalDur_cons, abs_of_nonneg h1, h2]

theorem totalDur_nonneg {l : List StackTrace} (h : ∀ s ∈ l, 0 ≤ s.Duration) :
    0 ≤ totalDur l := by
  rw [← absTotal_eq_totalDur h]
  exact absTotal_nonneg l

@[simp] theorem setDuration_Duration (s : StackTrace) (d : Int) :
    (s.setDuration d).Duration = d := rfl

@[simp] theorem setDuration_Frames (s : StackTrace) (d : Int) :
    (s.setDuration d).Frames = s.Frames := rfl

@[simp] theorem setDuration_CPU (s : StackTrace) (d : Int) :
    (s.setDuration d).CPU = s.CPU := rfl

@[simp] theorem Copy_Duration (s : StackTrace) : s.Copy.Duration = s.Duration := rfl

@[simp] theorem Copy_CPU (s : StackTrace) : s.Copy.CPU = s.CPU := rfl

theorem Copy_of_Frames {s : StackTrace} {f : List String} (h : s.Frames = some f) :
    s.Copy = s := by
  cases s
  simp_all [StackTrace.Copy]

theorem Equal_iff (s o : StackTrace) :
    s.Equal o = true ↔ s.Frames = o.Frames ∧ s.CPU = o.CPU := by
  simp [StackTrace.Equal]

/-- Without overflow one `Add` raises the exact total by the sample's duration
and the absolute total by at most its absolute value. -/
theorem addStacks_total (p : List StackTrace) (s : StackTrace)
    (h : absTotal p + |s.Duration| < 9223372036854775808) :
    totalDur (addStacks p s) = totalDur p + s.Duration ∧
      absTotal (addStacks p s) ≤ absTotal p + |s.Duration| := by
  induction p with
  | nil => simp [addStacks]
  | cons st rest ih =>
    have hr := absTotal_nonneg rest
    have hs := abs_nonneg s.Duration
    have ht := abs_nonneg st.Duration
    simp only [absTotal_cons] at h
    unfold addStacks
    split
    · have hadd := abs_add st.Duration s.Duration
      have hw : wrap64 (st.Duration + s.Duration) = st.Duration + s.Duration :=
        wrap64_of_abs_lt (by omega)
      simp only [totalDur_cons, absTotal_cons, hw, setDuration_Duration]
      constructor <;> omega
    · have ih1 := ih (by omega)
      simp only [totalDur_cons, absTotal_cons]
      constructor <;> omega

/-- Without overflow a sequence of `Add`s raises the exact total of a profile by
the exact total of the samples. -/
theorem foldl_Add_total (l : List StackTrace) (p : Profile)
    (h : absTotal p.Stacks + absTotal l < 9223372036854775808) :
    totalDur (l.foldl (fun q s => q.Add s) p).Stacks = totalDur p.Stacks + totalDur l ∧
      absTotal (l.foldl (fun q s => q.Add s) p).Stacks ≤ absTotal p.Stacks + absTotal l := by
  induction l generalizing p with
  | nil => simp
  | cons s l ih =>
    have hl := absTotal_nonneg l
    simp only [absTotal_cons] at h
    have h1 := addStacks_total p.Stacks s (by omega)
    have h2 := ih (p.Add s) (by simp only [Profile.Add]; omega)
    simp only [Profile.Add] at h2
    simp only [List.foldl_cons, totalDur_cons, absTotal_cons, Profile.Add]
    constructor <;> omega

/-- The "Perfect CPU Profiler" is the "Perfect Wallclock Profiler" of the on-CPU
segments. -/
theorem perfectCPU_eq_filter (l : List StackTrace) (p : Profile) :
    l.foldl (fun p sample => if !sample.CPU then p else p.Add sample) p =
      (l.filter (fun s => s.CPU)).foldl (fun q s => q.Add s) p := by
  induction l generalizing p with
  | nil => rfl
  | cons s l ih =>
    cases hc : s.CPU
    · simp only [List.foldl_cons, List.filter, hc, Bool.not_false, if_true]
      exact ih p
    · simp only [List.foldl_cons, List.filter, hc, Bool.not_true, Bool.false_eq_true, if_false]
      exact ih (p.Add s)

theorem Equal_iff_key (s o : StackTrace) : s.Equal o = true ↔ stackKey s = stackKey o := by
  simp [StackTrace.Equal, stackKey]

theorem Equal_false_iff_key (s o : StackTrace) :
    s.Equal o = false ↔ stackKey s ≠ stackKey o := by
  rw [← Bool.not_eq_true, Equal_iff_key]

theorem stackKey_Copy {s : StackTrace} (h : s.Frames ≠ none) : stackKey s.Copy = stackKey s := by
  obtain ⟨f, hf⟩ := Option.ne_none_iff_exists'.mp h
  rw [Copy_of_Frames hf]

/-- The identities held by a profile after one `Add`: unchanged when the sample's
identity is present, extended by the identity of the sample's copy otherwise. -/
theorem keys_addStacks (p : List StackTrace) (s : StackTrace) :
    (addStacks p s).map stackKey =
      if stackKey s ∈ p.map stackKey then p.map stackKey
      else p.map stackKey ++ [stackKey s.Copy] := by
  induction p with
  | nil => simp [addStacks]
  | cons st rest ih =>
    unfold addStacks
    split
    · rename_i he
      have hk := (Equal_iff_key st s).mp he
      have hmem : stackKey s ∈ (st :: rest).map stackKey := by
        rw [List.map_cons, ← hk]
        exact List.mem_cons_self _ _
      rw [if_pos hmem]
      rfl
    · rename_i he
      have hk : stackKey st ≠ stackKey s := fun h => he ((Equal_iff_key st s).mpr h)
      have hk2 : ¬ stackKey s = stackKey st := fun h => hk h.symm
      simp only [List.map_cons, List.mem_cons, hk2, false_or, ih]
      split <;> simp

/-- `Add` of samples with non-nil frames keeps the identities of a profile
pairwise different. -/
theorem keys_addStacks_nodup (p : List StackTrace) (s : StackTrace) (hs : s.Frames ≠ none)
    (hnd : (p.map stackKey).Nodup) : ((addStacks p s).map stackKey).Nodup := by
  rw [keys_addStacks]
  split
  · exact hnd
  · rename_i hmem
    rw [stackKey_Copy hs]
    exact List.Nodup.append hnd (List.nodup_singleton _) (by simpa using hmem)

theorem mem_keys_addStacks (p : List StackTrace) (s : StackTrace) (hs : s.Frames ≠ none)
    (k : Option (List String) × Bool) :
    k ∈ (addStacks p s).map stackKey ↔ k ∈ p.map stackKey ∨ k = stackKey s := by
  rw [keys_addStacks]
  split
  · rename_i hmem
    constructor
    · exact fun h => Or.inl h
    · rintro (h | h)
      · exact h
      · rw [h]; exact hmem
  · rw [stackKey_Copy hs]
    simp

theorem keys_foldl_Add (l : List StackTrace) (p : Profile) (hl : ∀ s ∈ l, s.Frames ≠ none)
    (hnd : (p.Stacks.map stackKey).Nodup) :
    ((l.foldl (fun q s => q.Add s) p).Stacks.map stackKey).Nodup ∧
      ∀ k, k ∈ (l.foldl (fun q s => q.Add s) p).Stacks.map stackKey ↔
        k ∈ p.Stacks.map stackKey ∨ k ∈ l.map stackKey := by
  induction l generalizing p with
  | nil => simp [hnd]
  | cons s l ih =>
    have hs : s.Frames ≠ none := hl s (List.mem_cons_self _ _)
    have h1 := ih (p.Add s) (fun t ht => hl t (List.mem_cons_of_mem _ ht))
      (keys_addStacks_nodup p.Stacks s hs hnd)
    refine ⟨h1.1, fun k => ?_⟩
    have h2 := h1.2 k
    simp only [List.foldl_cons]
    rw [h2]
    simp only [Profile.Add, mem_keys_addStacks p.Stacks s hs k, List.map_cons, List.mem_cons]
    tauto

/-- Without overflow one `Add` of a sample with non-nil frames raises the total
recorded for the sample's identity by its duration and changes no other total. -/
theorem addStacks_filter_total (p : List StackTrace) (s k : StackTrace) (hs : s.Frames ≠ none)
    (h : absTotal p + |s.Duration| < 9223372036854775808) :
    totalDur ((addStacks p s).filter (fun x => x.Equal k)) =
      totalDur (p.filter (fun x => x.Equal k)) + if s.Equal k then s.Duration else 0 := by
  obtain ⟨f, hf⟩ := Option.ne_none_iff_exists'.mp hs
  induction p with
  | nil => cases hc : s.Equal k <;> simp [addStacks, Copy_of_Frames hf, List.filter, hc]
  | cons st rest ih =>
    have hr := absTotal_nonneg rest
    have hsn := abs_nonneg s.Duration
    have htn := abs_nonneg st.Duration
    simp only [absTotal_cons] at h
    unfold addStacks
    split
    · rename_i he
      have hadd := abs_add st.Duration s.Duration
      have hw : wrap64 (st.Duration + s.Duration) = st.Duration + s.Duration :=
        wrap64_of_abs_lt (by omega)
      have hk := (Equal_iff_key st s).mp he
      have hsame : s.Equal k = st.Equal k := by
        rw [Bool.eq_iff_iff, Equal_iff_key, Equal_iff_key, hk]
      have hhead : ∀ d : Int, (st.setDuration d).Equal k = st.Equal k :=
        fun _ => rfl
      rw [hsame]
      cases hc : st.Equal k
      · simp [List.filter, hhead, hc]
      · simp [List.filter, hhead, hc, hw]
        ring
    · have ih1 := ih (by omega)
      cases hc : st.Equal k
      · simp only [List.filter, hc]
        exact ih1
      · simp only [List.filter, hc, totalDur_cons]
        rw [ih1]
        ring

theorem foldl_Add_filter_total (l : List StackTrace) (p : Profile) (k : StackTrace)
    (hl : ∀ s ∈ l, s.Frames ≠ none)
    (h : absTotal p.Stacks + absTotal l < 9223372036854775808) :
    totalDur ((l.foldl (fun q s => q.Add s) p).Stacks.filter (fun x => x.Equal k)) =
      totalDur (p.Stacks.filter (fun x => x.Equal k)) +
        totalDur (l.filter (fun x => x.Equal k)) := by
  induction l generalizing p with
  | nil => simp
  | cons s l ih =>
    have hs : s.Frames ≠ none := hl s (List.mem_cons_self _ _)
    have hln := absTotal_nonneg l
    simp only [absTotal_cons] at h
    have h0 := addStacks_total p.Stacks s (by omega)
    have h1 := addStacks_filter_total p.Stacks s k hs (by omega)
    have h2 := ih (p.Add s) (fun t ht => hl t (List.mem_cons_of_mem _ ht))
      (by simp only [Profile.Add]; omega)
    simp only [Profile.Add] at h2
    simp only [List.foldl_cons, Profile.Add]
    rw [h2, h1]
    cases hc : s.Equal k
    · simp [List.filter, hc]
    · simp [List.filter, hc]
      ring

/-- In a profile with pairwise different identities, exactly one element carries
a given identity that is present. -/
theorem filter_Equal_singleton (l : List StackTrace) (k : StackTrace)
    (hnd : (l.map stackKey).Nodup) (hmem : stackKey k ∈ l.map stackKey) :
    ∃ st, l.filter (fun x => x.Equal k) = [st] := by
  induction l with
  | nil => simp at hmem
  | cons a l ih =>
    rw [List.map_cons, List.nodup_cons] at hnd
    cases hc : a.Equal k
    · have hk : stackKey a ≠ stackKey k := (Equal_false_iff_key a k).mp hc
      have hmem1 : stackKey k ∈ l.map stackKey := by
        rw [List.map_cons, List.mem_cons] at hmem
        rcases hmem with h | h
        · exact absurd h.symm hk
        · exact h
      obtain ⟨st, hst⟩ := ih hnd.2 hmem1
      exact ⟨st, by simp [List.filter, hc, hst]⟩
    · have hk : stackKey a = stackKey k := (Equal_iff_key a k).mp hc
      refine ⟨a, ?_⟩
      have hnone : l.filter (fun x => x.Equal k) = [] := by
        rw [List.filter_eq_nil_iff]
        intro x hx hxe
        have hxk := (Equal_iff_key x k).mp hxe
        exact hnd.1 (by rw [hk, ← hxk]; exact List.mem_map_of_mem _ hx)
      simp [List.filter, hc, hnone]

theorem totalDur_take_le {l : List StackTrace} (h : ∀ s ∈ l, 0 ≤ s.Duration) (k : Nat) :
    totalDur (l.take k) ≤ totalDur l := by
  have h1 : totalDur l = totalDur (l.take k) + totalDur (l.drop k) := by
    rw [← totalDur_append, List.take_append_drop]
  have h2 : 0 ≤ totalDur (l.drop k) :=
    totalDur_nonneg (fun s hs => h s (List.mem_of_mem_drop hs))
  omega

/-- On segments with non-negative durations and without overflow of the running
timestamp, the scan of `Sample` stops at the first segment whose cumulative end
time reaches the offset, and finds nothing when there is none. -/
theorem sampleFrom_spec (l : List StackTrace) (ts offset : Int)
    (hnn : ∀ s ∈ l, 0 ≤ s.Duration) (hts : 0 ≤ ts)
    (hB : ts + totalDur l < 9223372036854775808) :
    (∀ i, i < l.length → offset ≤ ts + totalDur (l.take (i + 1)) →
        (∀ j, j < i → ts + totalDur (l.take (j + 1)) < offset) →
        sampleFrom ts l offset = l[i]?) ∧
      ((∀ i, i < l.length → ts + totalDur (l.take (i + 1)) < offset) →
        sampleFrom ts l offset = none) := by
  induction l generalizing ts with
  | nil => simp [sampleFrom]
  | cons st rest ih =>
    have hst : 0 ≤ st.Duration := hnn st (List.mem_cons_self _ _)
    have hrest : ∀ s ∈ rest, 0 ≤ s.Duration := fun s hs => hnn s (List.mem_cons_of_mem _ hs)
    have hrn := totalDur_nonneg hrest
    simp only [totalDur_cons] at hB
    have hw : wrap64 (ts + st.Duration) = ts + st.Duration := by
      unfold wrap64
      omega
    have ih1 := ih (ts + st.Duration) hrest (by omega) (by omega)
    unfold sampleFrom
    rw [hw]
    constructor
    · intro i hi hle hlt
      cases i with
      | zero =>
        have h0 : offset ≤ ts + st.Duration := by simpa using hle
        simp [h0]
      | succ i =>
        have h0 : ¬ offset ≤ ts + st.Duration := by
          have := hlt 0 (Nat.succ_pos i)
          simp at this
          omega
        rw [if_neg h0, List.getElem?_cons_succ]
        apply ih1.1 i (by simpa using hi)
        · simp only [List.take_succ_cons, totalDur_cons] at hle
          omega
        · intro j hj
          have := hlt (j + 1) (by omega)
          simp only [List.take_succ_cons, totalDur_cons] at this
          omega
    · intro hall
      have h0 : ¬ offset ≤ ts + st.Duration := by
        have := hall 0 (by simp)
        simp at this
        omega
      rw [if_neg h0]
      apply ih1.2
      intro i hi
      have := hall (i + 1) (by simpa using hi)
      simp only [List.take_succ_cons, totalDur_cons] at this
      omega

theorem goPeriod_eq : goPeriod = 10000000 := by decide

theorem jiffy_eq : jiffy = 4000000 := by decide

theorem nodePeriod_eq : nodePeriod = 10101010 := by decide

/-- The inner loop of the "Go CPU Profiler" without its 4 ms chunks: started with
an accumulator below one period on a request in `[0, 2^63)`, it calls `add` once
per full period contained in accumulator plus request and leaves the rest in the
accumulator. -/
theorem jiffyLoop_eq {σ : Type} (add : σ → StackTrace → σ) (st : StackTrace)
    (r acc : Int) (p : σ) (hr0 : 0 ≤ r) (hrB : r < 9223372036854775808)
    (ha0 : 0 ≤ acc) (haP : acc < goPeriod) :
    jiffyLoop add st r acc p =
      ((fun q => add q (st.Copy.setDuration goPeriod))^[((acc + r) / goPeriod).toNat] p,
        (acc + r) % goPeriod) := by
  generalize hn : r.toNat = n
  induction n using Nat.strong_induction_on generalizing r acc p with
  | _ n ih =>
    rw [jiffyLoop]
    by_cases hpos : 0 < r
    · rw [if_pos hpos]
      by_cases hj : r > jiffy
      · rw [if_pos hj]
        have hw1 : wrap64 (acc + jiffy) = acc + jiffy := by
          rw [goPeriod_eq] at haP
          rw [jiffy_eq]
          unfold wrap64
          omega
        have hw2 : wrap64 (r - jiffy) = r - jiffy := by
          rw [jiffy_eq] at hj ⊢
          unfold wrap64
          omega
        rw [hw1, hw2]
        by_cases hp : acc + jiffy ≥ goPeriod
        · rw [if_pos hp]
          have hw3 : wrap64 (acc + jiffy - goPeriod) = acc + jiffy - goPeriod := by
            rw [goPeriod_eq] at haP hp ⊢
            rw [jiffy_eq] at hp ⊢
            unfold wrap64
            omega
          rw [hw3]
          rw [ih (r - jiffy).toNat (by rw [jiffy_eq] at hj ⊢; omega) (r - jiffy)
            (acc + jiffy - goPeriod) _ (by rw [jiffy_eq] at hj ⊢; omega)
            (by rw [jiffy_eq]; omega) (by omega)
            (by rw [goPeriod_eq] at haP ⊢; rw [jiffy_eq]; omega) rfl]
          have e1 : ((acc + jiffy - goPeriod + (r - jiffy)) / goPeriod).toNat + 1 =
              ((acc + r) / goPeriod).toNat := by
            rw [goPeriod_eq] at haP hp ⊢
            rw [jiffy_eq] at hp hj ⊢
            omega
          have e2 : (acc + jiffy - goPeriod + (r - jiffy)) % goPeriod = (acc + r) % goPeriod := by
            rw [goPeriod_eq] at haP hp ⊢
            rw [jiffy_eq] at hp hj ⊢
            omega
          rw [← e1, e2, Function.iterate_succ_apply]
        · rw [if_neg hp]
          rw [ih (r - jiffy).toNat (by rw [jiffy_eq] at hj ⊢; omega) (r - jiffy)
            (acc + jiffy) _ (by rw [jiffy_eq] at hj ⊢; omega)
            (by rw [jiffy_eq]; omega) (by rw [jiffy_eq]; omega)
            (by omega) rfl]
          have e1 : acc + jiffy + (r - jiffy) = acc + r := by ring
          rw [e1]
      · rw [if_neg hj]
        have hw1 : wrap64 (acc + r) = acc + r := by
          rw [goPeriod_eq] at haP
          rw [jiffy_eq] at hj
          unfold wrap64
          omega
        rw [hw1]
        by_cases hp : acc + r ≥ goPeriod
        · rw [if_pos hp]
          have hw3 : wrap64 (acc + r - goPeriod) = acc + r - goPeriod := by
            rw [goPeriod_eq] at haP hp ⊢
            rw [jiffy_eq] at hj
            unfold wrap64
            omega
          rw [hw3, jiffyLoop, if_neg (lt_irrefl 0)]
          have e1 : ((acc + r) / goPeriod).toNat = 1 := by
            rw [goPeriod_eq] at haP hp ⊢
            rw [jiffy_eq] at hj
            omega
          have e2 : (acc + r) % goPeriod = acc + r - goPeriod := by
            rw [goPeriod_eq] at haP hp ⊢
            rw [jiffy_eq] at hj
            omega
          rw [e1, e2]
          rfl
        · rw [if_neg hp, jiffyLoop, if_neg (lt_irrefl 0)]
          have e1 : ((acc + r) / goPeriod).toNat = 0 := by
            rw [goPeriod_eq] at haP hp ⊢
            omega
          have e2 : (acc + r) % goPeriod = acc + r := by
            rw [goPeriod_eq] at haP hp ⊢
            omega
          rw [e1, e2]
          rfl
    · rw [if_neg hpos]
      have hr : r = 0 := by omega
      subst hr
      have e1 : ((acc + 0) / goPeriod).toNat = 0 := by
        rw [goPeriod_eq] at haP ⊢
        omega
      have e2 : (acc + 0) % goPeriod = acc := by
        rw [goPeriod_eq] at haP ⊢
        omega
      rw [e1, e2]
      rfl

theorem foldl_append_singleton (smps l0 : List StackTrace) :
    smps.foldl (fun l s => l ++ [s]) l0 = l0 ++ smps := by
  induction smps generalizing l0 with
  | nil => simp
  | cons s smps ih => simp [ih]

theorem iterate_eq_foldl_replicate {σ : Type} (add : σ → StackTrace → σ) (smp : StackTrace)
    (k : Nat) (p : σ) :
    (fun q => add q smp)^[k] p = (List.replicate k smp).foldl add p := by
  induction k generalizing p with
  | zero => rfl
  | succ k ih => rw [Function.iterate_succ_apply, ih, List.replicate_succ, List.foldl_cons]

theorem iterate_append_singleton (smp : StackTrace) (k : Nat) (l0 : List StackTrace) :
    (fun q => q ++ [smp])^[k] l0 = l0 ++ List.replicate k smp := by
  have h := iterate_eq_foldl_replicate (fun l s => l ++ [s]) smp k l0
  rw [foldl_append_singleton] at h
  exact h

/-- The calls of `add` made by the inner loop of the "Go CPU Profiler" do not
depend on the sink: on every input the loop adds some number `k` of copies of the
segment with duration one period. -/
theorem jiffyLoop_fold (st : StackTrace) (r acc : Int) :
    ∃ (k : Nat) (acc1 : Int), ∀ (σ : Type) (add : σ → StackTrace → σ) (p : σ),
      jiffyLoop add st r acc p =
        ((List.replicate k (st.Copy.setDuration goPeriod)).foldl add p, acc1) := by
  generalize hn : r.toNat = n
  induction n using Nat.strong_induction_on generalizing r acc with
  | _ n ih =>
    by_cases hpos : 0 < r
    · by_cases hj : r > jiffy
      · have hdec : (wrap64 (r - jiffy)).toNat < n := by
          rw [jiffy_eq] at hj ⊢
          unfold wrap64
          omega
        by_cases hp : wrap64 (acc + jiffy) ≥ goPeriod
        · obtain ⟨k, acc1, hk⟩ := ih _ hdec (wrap64 (r - jiffy))
            (wrap64 (wrap64 (acc + jiffy) - goPeriod)) rfl
          refine ⟨k + 1, acc1, fun σ add p => ?_⟩
          rw [jiffyLoop, if_pos hpos, if_pos hj, if_pos hp, hk, List.replicate_succ,
            List.foldl_cons]
        · obtain ⟨k, acc1, hk⟩ := ih _ hdec (wrap64 (r - jiffy)) (wrap64 (acc + jiffy)) rfl
          refine ⟨k, acc1, fun σ add p => ?_⟩
          rw [jiffyLoop, if_pos hpos, if_pos hj, if_neg hp, hk]
      · have hdec : (0 : Int).toNat < n := by
          simp only [Int.toNat_zero]
          omega
        by_cases hp : wrap64 (acc + r) ≥ goPeriod
        · obtain ⟨k, acc1, hk⟩ := ih _ hdec 0 (wrap64 (wrap64 (acc + r) - goPeriod)) rfl
          refine ⟨k + 1, acc1, fun σ add p => ?_⟩
          rw [jiffyLoop, if_pos hpos, if_neg hj, if_pos hp, hk, List.replicate_succ,
            List.foldl_cons]
        · obtain ⟨k, acc1, hk⟩ := ih _ hdec 0 (wrap64 (acc + r)) rfl
          refine ⟨k, acc1, fun σ add p => ?_⟩
          rw [jiffyLoop, if_pos hpos, if_neg hj, if_neg hp, hk]
    · refine ⟨0, acc, fun σ add p => ?_⟩
      rw [jiffyLoop, if_neg hpos]
      rfl

/-- The calls of `add` made by the "Go CPU Profiler" do not depend on the sink:
it adds a list of samples, each a copy of an on-CPU segment of the trace with
duration one period. -/
theorem goFold_fold (l : List StackTrace) (acc : Int) :
    ∃ (smps : List StackTrace) (acc1 : Int),
      (∀ x ∈ smps, ∃ st ∈ l, st.CPU = true ∧ x = (st.Copy.setDuration goPeriod)) ∧
      ∀ (σ : Type) (add : σ → StackTrace → σ) (p : σ),
        l.foldl (goStep add) (p, acc) = (smps.foldl add p, acc1) := by
  induction l generalizing acc with
  | nil => exact ⟨[], acc, by simp, fun σ add p => rfl⟩
  | cons st l ih =>
    cases hc : st.CPU
    · obtain ⟨smps, acc1, hmem, hfold⟩ := ih acc
      refine ⟨smps, acc1, fun x hx => ?_, fun σ add p => ?_⟩
      · obtain ⟨s, hs, h⟩ := hmem x hx
        exact ⟨s, List.mem_cons_of_mem _ hs, h⟩
      · rw [List.foldl_cons, ← hfold σ add p]
        simp [goStep, hc]
    · obtain ⟨k, acc0, hk⟩ := jiffyLoop_fold st st.Duration acc
      obtain ⟨smps, acc1, hmem, hfold⟩ := ih acc0
      refine ⟨List.replicate k (st.Copy.setDuration goPeriod) ++ smps, acc1,
        fun x hx => ?_, fun σ add p => ?_⟩
      · rcases List.mem_append.mp hx with h | h
        · exact ⟨st, List.mem_cons_self _ _, hc, (List.mem_replicate.mp h).2⟩
        · obtain ⟨s, hs, h1⟩ := hmem x h
          exact ⟨s, List.mem_cons_of_mem _ hs, h1⟩
      · rw [List.foldl_cons, List.foldl_append, ← hfold σ add _]
        simp [goStep, hc, hk]

/-- The profile of the "Go CPU Profiler" is the result of adding its samples, in
order, to the empty profile. -/
theorem goProfile_eq_foldl (e : ExecutionTrace) :
    goProfile e = (goSamples e).foldl (fun q s => q.Add s) ⟨[]⟩ := by
  obtain ⟨smps, acc1, _, hfold⟩ := goFold_fold e.Calls 0
  simp only [goProfile, goSamples, hfold, foldl_append_singleton, List.nil_append]

theorem goSamples_mem (e : ExecutionTrace) :
    ∀ x ∈ goSamples e, ∃ st ∈ e.Calls, st.CPU = true ∧
      x = (st.Copy.setDuration goPeriod) := by
  obtain ⟨smps, acc1, hmem, hfold⟩ := goFold_fold e.Calls 0
  simp only [goSamples, hfold, foldl_append_singleton, List.nil_append]
  exact hmem

theorem sampleFrom_mem (l : List StackTrace) (ts offset : Int) (s : StackTrace)
    (h : sampleFrom ts l offset = some s) : s ∈ l := by
  induction l generalizing ts with
  | nil => simp [sampleFrom] at h
  | cons st rest ih =>
    unfold sampleFrom at h
    split at h
    · simp only [Option.some.injEq] at h
      rw [← h]
      exact List.mem_cons_self _ _
    · exact List.mem_cons_of_mem _ (ih _ h)

/-- The calls of `add` made by the "Node.js Wallclock Profiler" do not depend on
the sink: either the fuel does not suffice, or the loop adds a list of samples,
each a copy of an on-CPU segment of the trace with duration one period. -/
theorem nodeLoop_fold (e : ExecutionTrace) (fuel : Nat) (offset : Int) :
    (∀ (σ : Type) (add : σ → StackTrace → σ) (p : σ), nodeLoop add e fuel offset p = none) ∨
    ∃ smps : List StackTrace,
      (∀ x ∈ smps, ∃ st ∈ e.Calls, st.CPU = true ∧
        x = (st.Copy.setDuration nodePeriod)) ∧
      ∀ (σ : Type) (add : σ → StackTrace → σ) (p : σ),
        nodeLoop add e fuel offset p = some (smps.foldl add p) := by
  induction fuel generalizing offset with
  | zero => exact Or.inl (fun σ add p => rfl)
  | succ fuel ih =>
    cases hs : e.Sample (wrap64 (offset + nodePeriod)) with
    | none =>
      refine Or.inr ⟨[], by simp, fun σ add p => ?_⟩
      simp [nodeLoop, hs]
    | some sample =>
      have hmem : sample ∈ e.Calls := sampleFrom_mem _ _ _ _ hs
      rcases ih (wrap64 (offset + nodePeriod)) with hnone | ⟨smps, hsm, hfold⟩
      · refine Or.inl (fun σ add p => ?_)
        simp only [nodeLoop, hs]
        split <;> exact hnone _ _ _
      · cases hc : sample.CPU
        · refine Or.inr ⟨smps, hsm, fun σ add p => ?_⟩
          simp [nodeLoop, hs, hc, hfold]
        · refine Or.inr ⟨(sample.Copy.setDuration nodePeriod) :: smps,
            fun x hx => ?_, fun σ add p => ?_⟩
          · rcases List.mem_cons.mp hx with h | h
            · exact ⟨sample, hmem, hc, h⟩
            · exact hsm x h
          · simp [nodeLoop, hs, hc, hfold]

/-- The profile of the "Node.js Wallclock Profiler" is the result of adding its
samples, in order, to the empty profile. -/
theorem nodeProfile_eq_foldl (fuel : Nat) (e : ExecutionTrace) :
    nodeProfile fuel e =
      (nodeSamples fuel e).map (fun l => l.foldl (fun q s => q.Add s) ⟨[]⟩) := by
  rcases nodeLoop_fold e fuel 0 with hnone | ⟨smps, _, hfold⟩
  · simp [nodeProfile, nodeSamples, hnone]
  · simp only [nodeProfile, nodeSamples, hfold, foldl_append_singleton, List.nil_append,
      Option.map_some']

theorem nodeSamples_mem (fuel : Nat) (e : ExecutionTrace) (l : List StackTrace)
    (h : nodeSamples fuel e = some l) :
    ∀ x ∈ l, ∃ st ∈ e.Calls, st.CPU = true ∧ x = (st.Copy.setDuration nodePeriod) := by
  rcases nodeLoop_fold e fuel 0 with hnone | ⟨smps, hsm, hfold⟩
  · simp [nodeSamples, hnone] at h
  · simp only [nodeSamples, hfold, foldl_append_singleton, List.nil_append,
      Option.some.injEq] at h
    rw [← h]
    exact hsm

/-- `Add` keeps the property that every element of a profile is on CPU when the
sample is. -/
theorem addStacks_all_CPU (p : List StackTrace) (s : StackTrace) (hs : s.CPU = true)
    (hp : ∀ x ∈ p, x.CPU = true) : ∀ x ∈ addStacks p s, x.CPU = true := by
  induction p with
  | nil =>
    intro x hx
    simp only [addStacks, List.mem_singleton] at hx
    rw [hx]
    exact hs
  | cons st rest ih =>
    have hst : st.CPU = true := hp st (List.mem_cons_self _ _)
    have hrest : ∀ x ∈ rest, x.CPU = true := fun x hx => hp x (List.mem_cons_of_mem _ hx)
    intro x hx
    unfold addStacks at hx
    split at hx
    · rcases List.mem_cons.mp hx with h | h
      · rw [h]
        exact hst
      · exact hrest x h
    · rcases List.mem_cons.mp hx with h | h
      · rw [h]
        exact hst
      · exact ih hrest x h

theorem foldl_Add_all_CPU (l : List StackTrace) (p : Profile) (hl : ∀ s ∈ l, s.CPU = true)
    (hp : ∀ x ∈ p.Stacks, x.CPU = true) :
    ∀ x ∈ (l.foldl (fun q s => q.Add s) p).Stacks, x.CPU = true := by
  induction l generalizing p with
  | nil => exact hp
  | cons s l ih =>
    exact ih (p.Add s) (fun t ht => hl t (List.mem_cons_of_mem _ ht))
      (addStacks_all_CPU p.Stacks s (hl s (List.mem_cons_self _ _)) hp)

theorem goStep_eq_chunkFreeStep {σ : Type} (add : σ → StackTrace → σ) (p : σ) (acc : Int)
    (st : StackTrace) (h0 : 0 ≤ st.Duration) (hB : st.Duration < 9223372036854775808)
    (ha0 : 0 ≤ acc) (haP : acc < goPeriod) :
    goStep add (p, acc) st = chunkFreeStep add (p, acc) st := by
  unfold goStep chunkFreeStep
  split
  · rfl
  · exact jiffyLoop_eq add st st.Duration acc p h0 hB ha0 haP

@[simp] theorem cpuTotal_nil : cpuTotal [] = 0 := rfl

theorem cpuTotal_cons (s : StackTrace) (l : List StackTrace) :
    cpuTotal (s :: l) = (if s.CPU then s.Duration else 0) + cpuTotal l := by
  cases hc : s.CPU <;> simp [cpuTotal, List.filter, hc]

theorem cpuTotal_nonneg {l : List StackTrace} (h : ∀ s ∈ l, 0 ≤ s.Duration) :
    0 ≤ cpuTotal l :=
  totalDur_nonneg (fun s hs => h s (List.mem_of_mem_filter hs))

/-- The samples of the "Go CPU Profiler" on segments with durations in
`[0, 2^63)`: started with the accumulator `A mod 10ms`, the run over segments
with on-CPU total `C` ends with `(A + C) mod 10ms` and adds
`floor((A + C) / 10ms) - floor(A / 10ms)` samples. -/
theorem goFold_log (l l0 : List StackTrace) (A : Int) (hA : 0 ≤ A)
    (hnn : ∀ s ∈ l, 0 ≤ s.Duration ∧ s.Duration < 9223372036854775808) :
    ∃ extra : List StackTrace,
      l.foldl (goStep (fun l s => l ++ [s])) (l0, A % goPeriod) =
          (l0 ++ extra, (A + cpuTotal l) % goPeriod) ∧
        (extra.length : Int) = (A + cpuTotal l) / goPeriod - A / goPeriod := by
  induction l generalizing l0 A with
  | nil => exact ⟨[], by simp, by simp⟩
  | cons st l ih =>
    have hst := hnn st (List.mem_cons_self _ _)
    have hrest : ∀ s ∈ l, 0 ≤ s.Duration ∧ s.Duration < 9223372036854775808 :=
      fun s hs => hnn s (List.mem_cons_of_mem _ hs)
    have hCn : 0 ≤ cpuTotal l := cpuTotal_nonneg (fun s hs => (hrest s hs).1)
    cases hc : st.CPU
    · obtain ⟨extra, hfold, hlen⟩ := ih l0 A hA hrest
      refine ⟨extra, ?_, ?_⟩
      · rw [List.foldl_cons, cpuTotal_cons]
        simp only [goStep, hc, Bool.not_false, if_true, Bool.false_eq_true, if_false, zero_add]
        exact hfold
      · rw [cpuTotal_cons]
        simp only [hc, Bool.false_eq_true, if_false, zero_add]
        exact hlen
    · have hm0 : 0 ≤ A % goPeriod := by rw [goPeriod_eq]; omega
      have hmP : A % goPeriod < goPeriod := by rw [goPeriod_eq]; omega
      have hstep := goStep_eq_chunkFreeStep (fun l s => l ++ [s]) l0 (A % goPeriod) st
        hst.1 hst.2 hm0 hmP
      have hacc : (A % goPeriod + st.Duration) % goPeriod = (A + st.Duration) % goPeriod := by
        rw [goPeriod_eq]; omega
      obtain ⟨extra, hfold, hlen⟩ := ih
        (l0 ++ List.replicate ((A % goPeriod + st.Duration) / goPeriod).toNat
          (st.Copy.setDuration goPeriod)) (A + st.Duration) (by omega) hrest
      refine ⟨List.replicate ((A % goPeriod + st.Duration) / goPeriod).toNat
          (st.Copy.setDuration goPeriod) ++ extra, ?_, ?_⟩
      · rw [List.foldl_cons, hstep, cpuTotal_cons]
        simp only [chunkFreeStep, hc, Bool.not_true, Bool.false_eq_true, if_false, if_true]
        rw [iterate_append_singleton, hacc, hfold, List.append_assoc, add_assoc]
      · rw [cpuTotal_cons]
        simp only [hc, if_true, List.length_append, List.length_replicate, Nat.cast_add]
        have h1 := hst.1
        rw [goPeriod_eq] at hlen ⊢
        omega

/-- The number of samples of the "Go CPU Profiler" on a trace whose segments have
durations in `[0, 2^63)` is the number of full periods in the on-CPU total. -/
theorem goSamples_length (e : ExecutionTrace)
    (hnn : ∀ s ∈ e.Calls, 0 ≤ s.Duration ∧ s.Duration < 9223372036854775808) :
    ((goSamples e).length : Int) = cpuTotal e.Calls / goPeriod := by
  obtain ⟨extra, hfold, hlen⟩ := goFold_log e.Calls [] 0 (le_refl 0) hnn
  have h0 : (0 : Int) % goPeriod = 0 := by decide
  rw [h0] at hfold
  simp only [goSamples, hfold, List.nil_append]
  rw [hlen]
  simp

theorem totalDur_of_const {l : List StackTrace} {d : Int} (h : ∀ x ∈ l, x.Duration = d) :
    totalDur l = d * l.length := by
  induction l with
  | nil => simp
  | cons s l ih =>
    have h1 := h s (List.mem_cons_self _ _)
    have h2 := ih (fun x hx => h x (List.mem_cons_of_mem _ hx))
    simp only [totalDur_cons, List.length_cons, Nat.cast_add, Nat.cast_one, h1, h2]
    ring

/-- Adding `n` samples with the identity of the single element of a profile adds
`n` times their duration to it, in int64 arithmetic. -/
theorem foldl_Add_replicate (f : List String) (c : Bool) (d v : Int) (n : Nat) :
    (List.replicate n (StackTrace.mk d (some f) c)).foldl (fun q s => q.Add s)
        (Profile.mk [⟨wrap64 v, some f, c⟩]) =
      Profile.mk [⟨wrap64 (v + n * d), some f, c⟩] := by
  induction n generalizing v with
  | zero => simp
  | succ n ih =>
    rw [List.replicate_succ, List.foldl_cons]
    have h1 : (Profile.mk [⟨wrap64 v, some f, c⟩]).Add ⟨d, some f, c⟩ =
        Profile.mk [⟨wrap64 (v + d), some f, c⟩] := by
      simp [Profile.Add, addStacks, StackTrace.Equal, wrap64_add_wrap64,
        StackTrace.setDuration]
    rw [h1, ih (v + d)]
    have h2 : v + d + n * d = v + ((n + 1 : Nat) : Int) * d := by
      push_cast
      ring
    rw [h2]

theorem foldl_Add_replicate_empty (f : List String) (c : Bool) (d : Int) (hd : wrap64 d = d)
    (m : Nat) :
    (List.replicate (m + 1) (StackTrace.mk d (some f) c)).foldl (fun q s => q.Add s)
        (Profile.mk []) =
      Profile.mk [⟨wrap64 (d + m * d), some f, c⟩] := by
  rw [List.replicate_succ, List.foldl_cons]
  have h1 : (Profile.mk []).Add ⟨d, some f, c⟩ = Profile.mk [⟨wrap64 d, some f, c⟩] := by
    rw [hd]
    rfl
  rw [h1, foldl_Add_replicate]

theorem goSamples_Duration (e : ExecutionTrace) : ∀ x ∈ goSamples e, x.Duration = goPeriod := by
  intro x hx
  obtain ⟨st, _, _, h⟩ := goSamples_mem e x hx
  rw [h]
  rfl

/-- Without overflow the durations of the profile of the "Go CPU Profiler" sum to
one period per sample. -/
theorem goProfile_total (e : ExecutionTrace)
    (h : goPeriod * (goSamples e).length < 9223372036854775808) :
    totalDur (goProfile e).Stacks = goPeriod * (goSamples e).length := by
  have hnn : ∀ x ∈ goSamples e, 0 ≤ x.Duration := by
    intro x hx
    rw [goSamples_Duration e x hx]
    decide
  have htot := totalDur_of_const (goSamples_Duration e)
  have habs := absTotal_eq_totalDur hnn
  have h1 := (foldl_Add_total (goSamples e) ⟨[]⟩ (by
    simp only [absTotal_nil, zero_add]
    rw [habs, htot]
    exact h)).1
  rw [goProfile_eq_foldl, h1, htot]
  simp

/-- On the trace of three segments `main;workA` of 2^62 ns each the "Go CPU
Profiler" returns one element whose duration has wrapped. -/
theorem goProfile_overflowTrace3 :
    goProfile overflowTrace3 =
      ⟨[⟨-4611686018429551616, some ["main", "workA"], true⟩]⟩ := by
  have hlen := goSamples_length overflowTrace3 (by decide)
  have hC : cpuTotal overflowTrace3.Calls / goPeriod = 1383505805528 := by decide
  rw [hC] at hlen
  have hlen2 : (goSamples overflowTrace3).length = 1383505805527 + 1 := by omega
  have hall : ∀ x ∈ goSamples overflowTrace3,
      x = StackTrace.mk 10000000 (some ["main", "workA"]) true := by
    intro x hx
    obtain ⟨st, hst, _, h⟩ := goSamples_mem overflowTrace3 x hx
    rw [h]
    simp only [overflowTrace3, List.mem_cons, List.mem_singleton, List.not_mem_nil,
      or_false, or_self] at hst
    rw [hst]
    decide
  have hrep := List.eq_replicate_of_mem hall
  rw [hlen2] at hrep
  rw [goProfile_eq_foldl, hrep, foldl_Add_replicate_empty _ _ _ (by decide)]
  have hw : wrap64 (10000000 + ((1383505805527 : Nat) : Int) * 10000000) =
      -4611686018429551616 := by decide
  rw [hw]

/-- On a trace with non-negative durations and a total below 2^63 ns, `Sample`
finds a segment only for offsets up to the total. -/
theorem Sample_some_le (e : ExecutionTrace) (offset : Int) (s : StackTrace)
    (hnn : ∀ s ∈ e.Calls, 0 ≤ s.Duration) (hB : totalDur e.Calls < 9223372036854775808)
    (h : e.Sample offset = some s) : offset ≤ totalDur e.Calls := by
  by_contra hlt
  have hspec := (sampleFrom_spec e.Calls 0 offset hnn (le_refl 0) (by omega)).2
  have hnone : e.Sample offset = none := by
    apply hspec
    intro i _
    have := totalDur_take_le hnn (i + 1)
    omega
  rw [hnone] at h
  exact Option.noConfusion h

/-- Without overflow the loop of the "Node.js Wallclock Profiler" adds at most one
sample per period left between the offset and the end of the trace. -/
theorem nodeLoop_log_bound (e : ExecutionTrace) (hnn : ∀ s ∈ e.Calls, 0 ≤ s.Duration)
    (hB : totalDur e.Calls + nodePeriod < 9223372036854775808)
    (fuel : Nat) (offset : Int) (l0 l : List StackTrace)
    (h0 : 0 ≤ offset) (hT : offset ≤ totalDur e.Calls)
    (h : nodeLoop (fun l s => l ++ [s]) e fuel offset l0 = some l) :
    nodePeriod * l.length ≤ nodePeriod * l0.length + (totalDur e.Calls - offset) := by
  induction fuel generalizing offset l0 with
  | zero => simp [nodeLoop] at h
  | succ fuel ih =>
    have hw : wrap64 (offset + nodePeriod) = offset + nodePeriod := by
      rw [nodePeriod_eq] at hB ⊢
      unfold wrap64
      omega
    rw [nodeLoop, hw] at h
    cases hs : e.Sample (offset + nodePeriod) with
    | none =>
      simp only [hs, Option.some.injEq] at h
      rw [← h]
      omega
    | some sample =>
      have hle := Sample_some_le e _ sample hnn (by rw [nodePeriod_eq] at hB; omega) hs
      simp only [hs] at h
      split at h
      · have := ih (offset + nodePeriod) _ (by rw [nodePeriod_eq]; omega) hle h
        simp only [List.length_append, List.length_singleton, Nat.cast_add, Nat.cast_one] at this
        rw [nodePeriod_eq] at this ⊢
        omega
      · have := ih (offset + nodePeriod) _ (by rw [nodePeriod_eq]; omega) hle h
        rw [nodePeriod_eq] at this ⊢
        omega

/-- Without overflow the loop of the "Node.js Wallclock Profiler" returns as soon
as the fuel covers the periods left between the offset and the end of the trace. -/
theorem nodeLoop_returns {σ : Type} (add : σ → StackTrace → σ) (e : ExecutionTrace)
    (hnn : ∀ s ∈ e.Calls, 0 ≤ s.Duration)
    (hB : totalDur e.Calls + nodePeriod < 9223372036854775808)
    (fuel : Nat) (offset : Int) (p : σ)
    (h0 : 0 ≤ offset) (hT : offset ≤ totalDur e.Calls)
    (hfuel : totalDur e.Calls - offset < nodePeriod * fuel) :
    ∃ q, nodeLoop add e fuel offset p = some q := by
  induction fuel generalizing offset p with
  | zero =>
    simp only [Nat.cast_zero, mul_zero] at hfuel
    omega
  | succ fuel ih =>
    have hw : wrap64 (offset + nodePeriod) = offset + nodePeriod := by
      rw [nodePeriod_eq] at hB ⊢
      unfold wrap64
      omega
    rw [nodeLoop, hw]
    cases hs : e.Sample (offset + nodePeriod) with
    | none => exact ⟨p, rfl⟩
    | some sample =>
      have hle := Sample_some_le e _ sample hnn (by rw [nodePeriod_eq] at hB; omega) hs
      have hfuel2 : totalDur e.Calls - (offset + nodePeriod) < nodePeriod * fuel := by
        push_cast at hfuel
        rw [nodePeriod_eq] at hfuel ⊢
        omega
      simp only []
      split
      · exact ih (offset + nodePeriod) _ (by rw [nodePeriod_eq]; omega) hle hfuel2
      · exact ih (offset + nodePeriod) _ (by rw [nodePeriod_eq]; omega) hle hfuel2

/-- The "Node.js Wallclock Profiler" returns on every trace with non-negative
durations whose total plus one period is below 2^63 ns. -/
theorem nodeProfile_returns (e : ExecutionTrace) (hnn : ∀ s ∈ e.Calls, 0 ≤ s.Duration)
    (hB : totalDur e.Calls + nodePeriod < 9223372036854775808) :
    ∃ fuel p, nodeProfile fuel e = some p := by
  have hT := totalDur_nonneg hnn
  refine ⟨(totalDur e.Calls / nodePeriod).toNat + 1, ?_⟩
  apply nodeLoop_returns Profile.Add e hnn hB _ 0 ⟨[]⟩ (le_refl 0) hT
  push_cast
  rw [nodePeriod_eq]
  omega

/-- Without overflow, adding a sample of duration `d` to a profile whose
durations are positive multiples of `d` leaves positive multiples of `d`. -/
theorem addStacks_multiples (p : List StackTrace) (s : StackTrace) (d : Int)
    (hs : s.Duration = d) (h : absTotal p + |s.Duration| < 9223372036854775808)
    (hp : ∀ x ∈ p, ∃ k : Int, 0 < k ∧ x.Duration = k * d) :
    ∀ x ∈ addStacks p s, ∃ k : Int, 0 < k ∧ x.Duration = k * d := by
  induction p with
  | nil =>
    intro x hx
    simp only [addStacks, List.mem_singleton] at hx
    exact ⟨1, by decide, by rw [hx, Copy_Duration, hs, one_mul]⟩
  | cons st rest ih =>
    have hr := absTotal_nonneg rest
    have hsn := abs_nonneg s.Duration
    have htn := abs_nonneg st.Duration
    simp only [absTotal_cons] at h
    intro x hx
    unfold addStacks at hx
    split at hx
    · rcases List.mem_cons.mp hx with hx1 | hx1
      · obtain ⟨k, hk, hkd⟩ := hp st (List.mem_cons_self _ _)
        have hadd := abs_add st.Duration s.Duration
        have hw : wrap64 (st.Duration + s.Duration) = st.Duration + s.Duration :=
          wrap64_of_abs_lt (by omega)
        refine ⟨k + 1, by omega, ?_⟩
        rw [hx1, setDuration_Duration, hw, hkd, hs]
        ring
      · exact hp x (List.mem_cons_of_mem _ hx1)
    · rcases List.mem_cons.mp hx with hx1 | hx1
      · rw [hx1]
        exact hp st (List.mem_cons_self _ _)
      · exact ih (by omega) (fun y hy => hp y (List.mem_cons_of_mem _ hy)) x hx1

theorem foldl_Add_multiples (l : List StackTrace) (p : Profile) (d : Int)
    (hl : ∀ s ∈ l, s.Duration = d)
    (h : absTotal p.Stacks + absTotal l < 9223372036854775808)
    (hp : ∀ x ∈ p.Stacks, ∃ k : Int, 0 < k ∧ x.Duration = k * d) :
    ∀ x ∈ (l.foldl (fun q s => q.Add s) p).Stacks, ∃ k : Int, 0 < k ∧ x.Duration = k * d := by
  induction l generalizing p with
  | nil => exact hp
  | cons s l ih =>
    have hln := absTotal_nonneg l
    simp only [absTotal_cons] at h
    have h1 := (addStacks_total p.Stacks s (by omega)).2
    exact ih (p.Add s) (fun t ht => hl t (List.mem_cons_of_mem _ ht))
      (by simp only [Profile.Add]; omega)
      (addStacks_multiples p.Stacks s d (hl s (List.mem_cons_self _ _)) (by omega) hp)

theorem nodeSamples_Duration (fuel : Nat) (e : ExecutionTrace) (l : List StackTrace)
    (h : nodeSamples fuel e = some l) : ∀ x ∈ l, x.Duration = nodePeriod := by
  intro x hx
  obtain ⟨st, _, _, hst⟩ := nodeSamples_mem fuel e l h x hx
  rw [hst]
  rfl

/-- Without overflow every element of the profile returned by the
"Node.js Wallclock Profiler" lasts a positive number of periods. -/
theorem nodeProfile_multiples (e : ExecutionTrace) (hnn : ∀ s ∈ e.Calls, 0 ≤ s.Duration)
    (hB : totalDur e.Calls + nodePeriod < 9223372036854775808)
    (fuel : Nat) (p : Profile) (h : nodeProfile fuel e = some p) :
    ∀ x ∈ p.Stacks, ∃ k : Int, 0 < k ∧ x.Duration = k * nodePeriod := by
  rw [nodeProfile_eq_foldl] at h
  cases hs : nodeSamples fuel e with
  | none => simp [hs] at h
  | some l =>
    simp only [hs, Option.map_some', Option.some.injEq] at h
    rw [← h]
    have hdur := nodeSamples_Duration fuel e l hs
    have hbound := nodeLoop_log_bound e hnn hB fuel 0 [] l (le_refl 0)
      (totalDur_nonneg hnn) hs
    have hnnl : ∀ x ∈ l, 0 ≤ x.Duration := by
      intro x hx
      rw [hdur x hx]
      decide
    have habs := absTotal_eq_totalDur hnnl
    have htot := totalDur_of_const hdur
    apply foldl_Add_multiples l ⟨[]⟩ nodePeriod hdur _ (by simp)
    simp only [absTotal_nil, zero_add]
    rw [habs, htot]
    simp only [List.length_nil, Nat.cast_zero, mul_zero, zero_add, sub_zero] at hbound
    rw [nodePeriod_eq] at hB
    omega

/-- The loop of the "Node.js Wallclock Profiler" on a trace of one on-CPU segment
`s`, started after `i` probes: when the next `j` probes, at the int64 offsets
`wrap64 (i' * period)`, stay within the segment and the one after them leaves it,
the loop adds `j` samples and returns. -/
theorem nodeLoop_single (s : StackTrace) (hM : wrap64 (0 + s.Duration) = s.Duration)
    (hc : s.CPU = true) (j : Nat) (i fuel : Nat) (l0 : List StackTrace)
    (hin : ∀ k : Nat, i < k → k < i + j + 1 → wrap64 (k * nodePeriod) ≤ s.Duration)
    (hout : s.Duration < wrap64 ((i + j + 1 : Nat) * nodePeriod))
    (hfuel : j + 1 ≤ fuel) :
    nodeLoop (fun l x => l ++ [x]) ⟨[s]⟩ fuel (wrap64 (i * nodePeriod)) l0 =
      some (l0 ++ List.replicate j (s.Copy.setDuration nodePeriod)) := by
  induction j generalizing i fuel l0 with
  | zero =>
    obtain ⟨fuel, rfl⟩ : ∃ f, fuel = f + 1 := ⟨fuel - 1, by omega⟩
    have hoff : wrap64 (wrap64 (i * nodePeriod) + nodePeriod) =
        wrap64 ((i + 0 + 1 : Nat) * nodePeriod) := by
      rw [wrap64_add_wrap64]
      push_cast
      ring_nf
    have hs : (ExecutionTrace.mk [s]).Sample (wrap64 ((i + 0 + 1 : Nat) * nodePeriod)) = none := by
      simp only [ExecutionTrace.Sample, sampleFrom, hM]
      rw [if_neg (by omega)]
    rw [nodeLoop, hoff, hs]
    simp
  | succ j ih =>
    obtain ⟨fuel, rfl⟩ : ∃ f, fuel = f + 1 := ⟨fuel - 1, by omega⟩
    have hoff : wrap64 (wrap64 (i * nodePeriod) + nodePeriod) =
        wrap64 ((i + 1 : Nat) * nodePeriod) := by
      rw [wrap64_add_wrap64]
      push_cast
      ring_nf
    have hle := hin (i + 1) (by omega) (by omega)
    have hs : (ExecutionTrace.mk [s]).Sample (wrap64 ((i + 1 : Nat) * nodePeriod)) = some s := by
      simp only [ExecutionTrace.Sample, sampleFrom, hM]
      rw [if_pos hle]
    rw [nodeLoop, hoff, hs]
    simp only [hc, if_true]
    rw [ih (i + 1) fuel _ (fun k hk1 hk2 => hin k (by omega) (by omega))
      (by rw [show i + 1 + j + 1 = i + (j + 1) + 1 by omega]; exact hout) (by omega)]
    rw [List.append_assoc, List.singleton_append, ← List.replicate_succ]

/-- The int64 offsets of the first 2739341522338 probes of the
"Node.js Wallclock Profiler" stay within 913113840779 periods: the first
913113840779 are exact, the following ones have wrapped around once. -/
theorem node_offsets_within (k : Nat) (h0 : 0 < k) (h1 : k < 2739341522339) :
    wrap64 (k * nodePeriod) ≤ 9223372036847086790 := by
  rw [nodePeriod_eq]
  unfold wrap64
  by_cases h : k ≤ 913113840779
  · have hlt : (k : Int) * 10101010 + 9223372036854775808 < 18446744073709551616 := by omega
    rw [Int.emod_eq_of_lt (by omega) hlt]
    omega
  · have hsplit : (k : Int) * 10101010 + 9223372036854775808 =
        ((k : Int) * 10101010 - 9223372036854775808) + 1 * 18446744073709551616 := by ring
    rw [hsplit, Int.add_mul_emod_self, Int.emod_eq_of_lt (by omega) (by omega)]
    omega

/-- On the trace of one on-CPU segment of 913113840779 periods the
"Node.js Wallclock Profiler" returns at its 2739341522339th probe, after the
offset has wrapped around, with one element that is not a whole number of
periods. -/
theorem nodeProfile_nodeOverflowTrace :
    nodeProfile 2739341522339 nodeOverflowTrace =
      some ⟨[⟨9223372036841809764, some ["main"], true⟩]⟩ := by
  have hlog := nodeLoop_single ⟨9223372036847086790, some ["main"], true⟩ (by decide) rfl
    2739341522338 0 2739341522339 []
    (fun k hk1 hk2 => node_offsets_within k hk1 (by omega)) (by decide) (by omega)
  have h0 : wrap64 ((0 : Nat) * nodePeriod) = 0 := by decide
  rw [h0, List.nil_append] at hlog
  have hsm : nodeSamples 2739341522339 nodeOverflowTrace =
      some (List.replicate (2739341522337 + 1) ⟨10101010, some ["main"], true⟩) := hlog
  rw [nodeProfile_eq_foldl, hsm, Option.map_some',
    foldl_Add_replicate_empty _ _ _ (by decide)]
  have hw : wrap64 (10101010 + ((2739341522337 : Nat) : Int) * 10101010) =
      9223372036841809764 := by decide
  rw [hw]

/-- On the empty list a run of the inner loop of `Repeat` changes nothing, so the
outer loop never returns. -/
theorem repeatLoop_nil (duration : Int) (fuel : Nat) (calls : List StackTrace) (offset : Int) :
    repeatLoop duration [] fuel calls offset = none := by
  induction fuel generalizing calls offset with
  | zero => rfl
  | succ fuel ih => simp [repeatLoop, repeatPass, ih]

theorem le_maxDur {l : List StackTrace} {s : StackTrace} (h : s ∈ l) :
    s.Duration ≤ maxDur l := by
  induction l with
  | nil => simp at h
  | cons a l ih =>
    simp only [maxDur, List.map_cons, List.foldr_cons]
    rcases List.mem_cons.mp h with h1 | h1
    · rw [h1]
      exact le_max_left _ _
    · exact le_trans (ih h1) (le_max_right _ _)

/-- One run of the inner loop of `Repeat` from a state that satisfies the
invariant, without int64 overflow: either it returns the expected trace, or it
ends at a whole number of rounds with the invariant and the offset raised by the
durations visited. -/
theorem repeatPass_spec (D : Int) (list : List StackTrace)
    (hpos : ∀ s ∈ list, 0 < s.Duration)
    (hty : ∀ s ∈ list, s.Duration < 9223372036854775808)
    (hov : D + maxDur list ≤ 9223372036854775808)
    (rest pre calls : List StackTrace) (offset : Int) (hlist : list = pre ++ rest)
    (hposn : calls.length % list.length = pre.length % list.length)
    (hinv : RepeatInv D list calls offset) :
    ((repeatPass D rest calls offset).2.2 = true →
        RepeatResult D list (repeatPass D rest calls offset).1) ∧
      ((repeatPass D rest calls offset).2.2 = false →
        RepeatInv D list (repeatPass D rest calls offset).1
            (repeatPass D rest calls offset).2.1 ∧
          (repeatPass D rest calls offset).1.length % list.length = 0 ∧
          (repeatPass D rest calls offset).2.1 = offset + totalDur rest ∧
          (rest ≠ [] → (repeatPass D rest calls offset).1 ≠ [])) := by
  induction rest generalizing pre calls offset with
  | nil =>
    refine ⟨fun h => by simp [repeatPass] at h, fun _ => ⟨hinv, ?_, by simp [repeatPass],
      fun h => absurd rfl h⟩⟩
    simp only [repeatPass]
    rw [hposn, hlist, List.append_nil, Nat.mod_self]
  | cons st rest ih =>
    obtain ⟨hoff, h0, htile, hlt⟩ := hinv
    have hst : st ∈ list := by rw [hlist]; simp
    have hd0 := hpos st hst
    have hdB := hty st hst
    have hdm := le_maxDur hst
    have hprelt : pre.length < list.length := by rw [hlist]; simp
    have hupper : offset + st.Duration < 9223372036854775808 := by
      rcases Nat.eq_zero_or_pos calls.length with hz | hp
      · have : calls = [] := List.length_eq_zero.mp hz
        rw [hoff, this]
        simpa using hdB
      · have := hlt calls.length hp (le_refl _)
        rw [List.take_length] at this
        omega
    have hw : wrap64 (offset + st.Duration) = offset + st.Duration := by
      unfold wrap64
      omega
    have hidx : calls.length % list.length = pre.length := by
      rw [hposn, Nat.mod_eq_of_lt hprelt]
    have hget : list[pre.length]? = some st := by
      rw [hlist, List.getElem?_append_right (le_refl _), Nat.sub_self]
      exact List.getElem?_cons_zero
    have htile2 : ∀ i, i < (calls ++ [st]).length →
        (calls ++ [st])[i]? = list[i % list.length]? := by
      intro i hi
      simp only [List.length_append, List.length_singleton] at hi
      rcases Nat.lt_or_ge i calls.length with h1 | h1
      · rw [List.getElem?_append_left h1]
        exact htile i h1
      · have : i = calls.length := by omega
        rw [this, hidx, hget]
        simp
    have htot2 : totalDur (calls ++ [st]) = offset + st.Duration := by
      rw [totalDur_append, hoff]
      simp
    have hlt2 : ∀ m, 1 ≤ m → m ≤ calls.length → totalDur ((calls ++ [st]).take m) < D := by
      intro m hm1 hm2
      rw [List.take_append_of_le_length hm2]
      exact hlt m hm1 hm2
    unfold repeatPass
    rw [hw]
    by_cases hret : offset + st.Duration ≥ D
    · rw [if_pos hret]
      refine ⟨fun _ => ⟨by simp, htile2, by rw [htot2]; exact hret, ?_⟩,
        fun h => by simp at h⟩
      intro m hm1 hm2
      simp only [List.length_append, List.length_singleton] at hm2
      exact hlt2 m hm1 (by omega)
    · rw [if_neg hret]
      have hinv2 : RepeatInv D list (calls ++ [st]) (offset + st.Duration) := by
        refine ⟨htot2.symm, by omega, htile2, ?_⟩
        intro m hm1 hm2
        simp only [List.length_append, List.length_singleton] at hm2
        rcases Nat.lt_or_ge m (calls.length + 1) with h1 | h1
        · exact hlt2 m hm1 (by omega)
        · have : m = (calls ++ [st]).length := by simp; omega
          rw [this, List.take_length, htot2]
          omega
      have hposn2 : (calls ++ [st]).length % list.length =
          (pre ++ [st]).length % list.length := by
        simp only [List.length_append, List.length_singleton]
        exact Nat.ModEq.add_right 1 hposn
      have ih1 := ih (pre ++ [st]) (calls ++ [st]) (offset + st.Duration)
        (by rw [hlist]; simp) hposn2 hinv2
      refine ⟨ih1.1, fun h => ?_⟩
      obtain ⟨a, b, c, _⟩ := ih1.2 h
      refine ⟨a, b, ?_, fun _ => ?_⟩
      · rw [c, totalDur_cons]
        ring
      · intro hnil
        have hlen : ((repeatPass D rest (calls ++ [st]) (offset + st.Duration)).1).length
            % list.length = 0 := b
        have hoffeq := a.1
        rw [c, hnil] at hoffeq
        have hrn : 0 ≤ totalDur rest := totalDur_nonneg (fun s hs =>
          le_of_lt (hpos s (by rw [hlist]; simp [hs])))
        simp only [totalDur_nil] at hoffeq
        omega

theorem totalDur_pos {l : List StackTrace} (hne : l ≠ []) (hpos : ∀ s ∈ l, 0 < s.Duration) :
    0 < totalDur l := by
  cases l with
  | nil => exact absurd rfl hne
  | cons a l =>
    have h1 := hpos a (List.mem_cons_self _ _)
    have h2 : 0 ≤ totalDur l :=
      totalDur_nonneg (fun s hs => le_of_lt (hpos s (List.mem_cons_of_mem _ hs)))
    rw [totalDur_cons]
    omega

/-- Whatever `Repeat` returns from a state that satisfies the invariant, without
int64 overflow, is the expected trace. -/
theorem repeatLoop_spec (D : Int) (list : List StackTrace)
    (hpos : ∀ s ∈ list, 0 < s.Duration)
    (hty : ∀ s ∈ list, s.Duration < 9223372036854775808)
    (hov : D + maxDur list ≤ 9223372036854775808)
    (fuel : Nat) (calls : List StackTrace) (offset : Int)
    (hposn : calls.length % list.length = 0) (hinv : RepeatInv D list calls offset)
    (e : ExecutionTrace) (h : repeatLoop D list fuel calls offset = some e) :
    RepeatResult D list e.Calls := by
  induction fuel generalizing calls offset with
  | zero => simp [repeatLoop] at h
  | succ fuel ih =>
    have hp := repeatPass_spec D list hpos hty hov list [] calls offset rfl
      (by simpa using hposn) hinv
    rw [repeatLoop] at h
    split at h
    · rename_i hret
      simp only [Option.some.injEq] at h
      rw [← h]
      exact hp.1 hret
    · rename_i hret
      have hf : (repeatPass D list calls offset).2.2 = false := by simpa using hret
      obtain ⟨a, b, _, _⟩ := hp.2 hf
      exact ih _ _ b a h

/-- From a state that satisfies the invariant, without int64 overflow, `Repeat`
returns within as many rounds as nanoseconds are missing to the target (and at
least one). -/
theorem repeatLoop_returns (D : Int) (list : List StackTrace) (hne : list ≠ [])
    (hpos : ∀ s ∈ list, 0 < s.Duration)
    (hty : ∀ s ∈ list, s.Duration < 9223372036854775808)
    (hov : D + maxDur list ≤ 9223372036854775808)
    (fuel : Nat) (calls : List StackTrace) (offset : Int)
    (hposn : calls.length % list.length = 0) (hinv : RepeatInv D list calls offset)
    (hfuel : D - offset < fuel) (hfuel1 : 1 ≤ fuel) :
    ∃ e, repeatLoop D list fuel calls offset = some e := by
  induction fuel generalizing calls offset with
  | zero => omega
  | succ fuel ih =>
    have hp := repeatPass_spec D list hpos hty hov list [] calls offset rfl
      (by simpa using hposn) hinv
    rw [repeatLoop]
    split
    · exact ⟨_, rfl⟩
    · rename_i hret
      have hf : (repeatPass D list calls offset).2.2 = false := by simpa using hret
      obtain ⟨a, b, c, d⟩ := hp.2 hf
      have hS := totalDur_pos hne hpos
      have hlen : 1 ≤ (repeatPass D list calls offset).1.length := by
        have := d hne
        exact Nat.one_le_iff_ne_zero.mpr (fun h0 => this (List.length_eq_zero.mp h0))
      have hltD := a.2.2.2 _ hlen (le_refl _)
      rw [List.take_length, ← a.1, c] at hltD
      push_cast at hfuel
      exact ih _ _ b a (by rw [c]; omega) (by omega)

/-- With the pool of one segment of 2^62 ns and the target 2^63 - 1 ns the int64
offset of `Repeat` cycles through 2^62, -2^63, -2^62 and 0 and never reaches the
target. -/
theorem repeatLoop_stuckPool (fuel : Nat) (calls : List StackTrace) (offset : Int)
    (h : offset = 0 ∨ offset = 4611686018427387904 ∨ offset = -9223372036854775808 ∨
      offset = -4611686018427387904) :
    repeatLoop 9223372036854775807 stuckPool fuel calls offset = none := by
  induction fuel generalizing calls offset with
  | zero => rfl
  | succ fuel ih =>
    have hstep : ∀ o n : Int, wrap64 (o + 4611686018427387904) = n →
        ¬ n ≥ 9223372036854775807 →
        repeatPass 9223372036854775807 stuckPool calls o = (calls ++ stuckPool, n, false) := by
      intro o n hw hn
      simp only [stuckPool, repeatPass, hw, if_neg hn]
    rcases h with h | h | h | h
    · rw [h, repeatLoop, hstep 0 4611686018427387904 (by decide) (by decide)]
      exact ih _ _ (Or.inr (Or.inl rfl))
    · rw [h, repeatLoop, hstep 4611686018427387904 (-9223372036854775808) (by decide)
        (by decide)]
      exact ih _ _ (Or.inr (Or.inr (Or.inl rfl)))
    · rw [h, repeatLoop, hstep (-9223372036854775808) (-4611686018427387904) (by decide)
        (by decide)]
      exact ih _ _ (Or.inr (Or.inr (Or.inr rfl)))
    · rw [h, repeatLoop, hstep (-4611686018427387904) 0 (by decide) (by decide)]
      exact ih _ _ (Or.inl rfl)

theorem Repeat_stuckPool : ¬ ∃ fuel e, Repeat fuel 9223372036854775807 stuckPool = some e := by
  rintro ⟨fuel, e, h⟩
  rw [Repeat, repeatLoop_stuckPool fuel [] 0 (Or.inl rfl)] at h
  exact Option.noConfusion h

/-- Without int64 overflow `Repeat` returns on a non-empty pool with positive
durations, and what it returns is the expected trace. -/
theorem Repeat_spec (D : Int) (pool : List StackTrace) (hne : pool ≠ [])
    (hpos : ∀ s ∈ pool, 0 < s.Duration)
    (hty : ∀ s ∈ pool, s.Duration < 9223372036854775808)
    (hov : D + maxDur pool ≤ 9223372036854775808) :
    (∃ fuel e, Repeat fuel D pool = some e) ∧
      ∀ fuel e, Repeat fuel D pool = some e → RepeatResult D pool e.Calls := by
  have hinv : RepeatInv D pool [] 0 :=
    ⟨rfl, le_refl 0, fun i hi => absurd hi (Nat.not_lt_zero i),
      fun m hm1 hm2 => by simp at hm2; omega⟩
  constructor
  · refine ⟨D.toNat + 1, ?_⟩
    exact repeatLoop_returns D pool hne hpos hty hov _ [] 0 (by simp) hinv
      (by push_cast; omega) (by omega)
  · intro fuel e h
    exact repeatLoop_spec D pool hpos hty hov fuel [] 0 (by simp) hinv e h

/-- The total of a trace that `Repeat` returns exceeds the target by less than
the duration of its last segment, when the target is positive. -/
theorem RepeatResult_overshoot (D : Int) (pool calls : List StackTrace) (hne : pool ≠ [])
    (hD : 0 < D) (h : RepeatResult D pool calls) :
    totalDur calls < D + maxDur pool := by
  obtain ⟨hlen, htile, _, hlt⟩ := h
  have hL : 0 < pool.length := List.length_pos.mpr hne
  have hcne : calls ≠ [] := fun h0 => by rw [h0] at hlen; simp at hlen
  have hsplit := List.dropLast_append_getLast hcne
  have hlastmem : calls.getLast hcne ∈ pool := by
    have h1 := htile (calls.length - 1) (by omega)
    have h2 : calls[calls.length - 1]? = some (calls.getLast hcne) := by
      rw [List.getLast_eq_getElem]
      exact List.getElem?_eq_getElem _
    rw [h2] at h1
    exact List.getElem?_mem h1.symm
  have hmax := le_maxDur hlastmem
  have htot : totalDur calls = totalDur calls.dropLast + (calls.getLast hcne).Duration := by
    conv_lhs => rw [← hsplit]
    rw [totalDur_append]
    simp
  rw [htot, List.dropLast_eq_take]
  rcases Nat.lt_or_ge (calls.length - 1) 1 with h0 | h1
  · have hz : calls.length - 1 = 0 := by omega
    rw [hz, List.take_zero, totalDur_nil]
    omega
  · have := hlt (calls.length - 1) h1 (by omega)
    omega

/-- On segments with durations in `[0, 2^63)` the "Go CPU Profiler" and its
chunk-free reference go through the same states, and the accumulator stays in
`[0, 10ms)`. -/
theorem goFold_eq_chunkFree {σ : Type} (add : σ → StackTrace → σ) (l : List StackTrace)
    (p : σ) (acc : Int)
    (hnn : ∀ s ∈ l, 0 ≤ s.Duration ∧ s.Duration < 9223372036854775808)
    (ha0 : 0 ≤ acc) (haP : acc < goPeriod) :
    l.foldl (goStep add) (p, acc) = l.foldl (chunkFreeStep add) (p, acc) ∧
      0 ≤ (l.foldl (goStep add) (p, acc)).2 ∧ (l.foldl (goStep add) (p, acc)).2 < goPeriod := by
  induction l generalizing p acc with
  | nil => exact ⟨rfl, ha0, haP⟩
  | cons st l ih =>
    have hst := hnn st (List.mem_cons_self _ _)
    have hrest : ∀ s ∈ l, 0 ≤ s.Duration ∧ s.Duration < 9223372036854775808 :=
      fun s hs => hnn s (List.mem_cons_of_mem _ hs)
    have hstep := goStep_eq_chunkFreeStep add p acc st hst.1 hst.2 ha0 haP
    have hacc : 0 ≤ (chunkFreeStep add (p, acc) st).2 ∧
        (chunkFreeStep add (p, acc) st).2 < goPeriod := by
      unfold chunkFreeStep
      split
      · exact ⟨ha0, haP⟩
      · simp only []
        rw [goPeriod_eq]
        omega
    have ih1 := ih (chunkFreeStep add (p, acc) st).1 (chunkFreeStep add (p, acc) st).2 hrest
      hacc.1 hacc.2
    simp only [List.foldl_cons, hstep]
    exact ih1

theorem goFold_offCPU {σ : Type} (add : σ → StackTrace → σ) (l : List StackTrace)
    (state : σ × Int) (h : ∀ s ∈ l, s.CPU = false) :
    l.foldl (goStep add) state = state := by
  induction l generalizing state with
  | nil => rfl
  | cons st l ih =>
    have hst := h st (List.mem_cons_self _ _)
    rw [List.foldl_cons]
    have : goStep add state st = state := by simp [goStep, hst]
    rw [this]
    exact ih state (fun s hs => h s (List.mem_cons_of_mem _ hs))

/-- Two on-CPU segments shorter than 10ms that together reach 10ms, with off-CPU
segments between them: the "Go CPU Profiler" adds nothing for the first, carries
its duration over, and adds one sample for the second. -/
theorem goFold_two_segments {σ : Type} (add : σ → StackTrace → σ) (p : σ)
    (s1 s2 : StackTrace) (mid : List StackTrace)
    (h1 : s1.CPU = true) (h2 : s2.CPU = true) (hmid : ∀ s ∈ mid, s.CPU = false)
    (ha0 : 0 < s1.Duration) (ha : s1.Duration < goPeriod)
    (hb0 : 0 < s2.Duration) (hb : s2.Duration < goPeriod)
    (hab : s1.Duration + s2.Duration ≥ goPeriod) :
    (s1 :: (mid ++ [s2])).foldl (goStep add) (p, 0) =
      (add p (s2.Copy.setDuration goPeriod), s1.Duration + s2.Duration - goPeriod) := by
  rw [goPeriod_eq] at ha hb hab
  have e1 : goStep add (p, 0) s1 = (p, s1.Duration) := by
    rw [goStep_eq_chunkFreeStep add p 0 s1 (by omega) (by omega) (le_refl 0) (by decide)]
    have hq : ((0 + s1.Duration) / goPeriod).toNat = 0 := by rw [goPeriod_eq]; omega
    have hr : (0 + s1.Duration) % goPeriod = s1.Duration := by rw [goPeriod_eq]; omega
    simp only [chunkFreeStep, h1, Bool.not_true, Bool.false_eq_true, if_false, hq, hr]
    rfl
  have e2 : goStep add (p, s1.Duration) s2 =
      (add p (s2.Copy.setDuration goPeriod), s1.Duration + s2.Duration - goPeriod) := by
    rw [goStep_eq_chunkFreeStep add p s1.Duration s2 (by omega) (by omega) (by omega)
      (by rw [goPeriod_eq]; omega)]
    have hq : ((s1.Duration + s2.Duration) / goPeriod).toNat = 1 := by
      rw [goPeriod_eq]; omega
    have hr : (s1.Duration + s2.Duration) % goPeriod =
        s1.Duration + s2.Duration - goPeriod := by rw [goPeriod_eq]; omega
    simp only [chunkFreeStep, h2, Bool.not_true, Bool.false_eq_true, if_false, hq, hr]
    rfl
  rw [List.foldl_cons, e1, List.foldl_append, goFold_offCPU add mid _ hmid]
  simp only [List.foldl_cons, List.foldl_nil, e2]

theorem sampleFrom_eq_index (ts : Int) (l : List StackTrace) (offset : Int) :
    sampleFrom ts l offset = (sampleIndexFrom ts l offset).bind (fun i => l[i]?) := by
  induction l generalizing ts with
  | nil => rfl
  | cons st rest ih =>
    unfold sampleFrom sampleIndexFrom
    split
    · simp
    · rw [ih]
      cases sampleIndexFrom (wrap64 (ts + st.Duration)) rest offset <;> simp

theorem totalDur_take_succ (l : List StackTrace) (i : Nat) (s : StackTrace)
    (h : l[i]? = some s) : totalDur (l.take (i + 1)) = totalDur (l.take i) + s.Duration := by
  rw [List.take_succ, totalDur_append, h]
  simp

/-- On segments with non-negative durations and without overflow of the running
timestamp, an offset past the start resolves only to a segment it lands inside:
one that starts before the offset and ends at or after it. -/
theorem sampleIndexFrom_inside (l : List StackTrace) (ts offset : Int) (i : Nat)
    (hnn : ∀ s ∈ l, 0 ≤ s.Duration) (hts : 0 ≤ ts)
    (hB : ts + totalDur l < 9223372036854775808) (hoff : ts < offset)
    (h : sampleIndexFrom ts l offset = some i) :
    i < l.length ∧ ts + totalDur (l.take i) < offset ∧
      offset ≤ ts + totalDur (l.take (i + 1)) := by
  induction l generalizing ts i with
  | nil => simp [sampleIndexFrom] at h
  | cons st rest ih =>
    have hst : 0 ≤ st.Duration := hnn st (List.mem_cons_self _ _)
    have hrest : ∀ s ∈ rest, 0 ≤ s.Duration := fun s hs => hnn s (List.mem_cons_of_mem _ hs)
    have hrn := totalDur_nonneg hrest
    simp only [totalDur_cons] at hB
    have hw : wrap64 (ts + st.Duration) = ts + st.Duration := by
      unfold wrap64
      omega
    unfold sampleIndexFrom at h
    rw [hw] at h
    split at h
    · rename_i hle
      simp only [Option.some.injEq] at h
      rw [← h]
      simp only [List.length_cons, List.take_zero, totalDur_nil, List.take_succ_cons,
        totalDur_cons]
      omega
    · rename_i hle
      cases hr : sampleIndexFrom (ts + st.Duration) rest offset with
      | none => simp [hr] at h
      | some j =>
        simp only [hr, Option.map_some', Option.some.injEq] at h
        rw [← h]
        have := ih (ts + st.Duration) j hrest (by omega) (by omega) (by omega) hr
        simp only [List.length_cons, List.take_succ_cons, totalDur_cons]
        omega

theorem sampleFrom_none_lt (l : List StackTrace) (ts offset : Int)
    (hnn : ∀ s ∈ l, 0 ≤ s.Duration) (hts : 0 ≤ ts)
    (hB : ts + totalDur l < 9223372036854775808) (hoff : ts < offset)
    (h : sampleFrom ts l offset = none) : ts + totalDur l < offset := by
  induction l generalizing ts with
  | nil => simpa using hoff
  | cons st rest ih =>
    have hst : 0 ≤ st.Duration := hnn st (List.mem_cons_self _ _)
    have hrest : ∀ s ∈ rest, 0 ≤ s.Duration := fun s hs => hnn s (List.mem_cons_of_mem _ hs)
    have hrn := totalDur_nonneg hrest
    simp only [totalDur_cons] at hB ⊢
    have hw : wrap64 (ts + st.Duration) = ts + st.Duration := by
      unfold wrap64
      omega
    unfold sampleFrom at h
    rw [hw] at h
    split at h
    · exact Option.noConfusion h
    · have := ih (ts + st.Duration) hrest (by omega) (by omega) (by omega) h
      omega

/-- On a trace with non-negative durations and a total below 2^63 ns, `Sample`
finds a segment at every positive offset up to the total. -/
theorem Sample_some_of_le (e : ExecutionTrace) (offset : Int)
    (hnn : ∀ s ∈ e.Calls, 0 ≤ s.Duration) (hB : totalDur e.Calls < 9223372036854775808)
    (h0 : 0 < offset) (hT : offset ≤ totalDur e.Calls) : ∃ s, e.Sample offset = some s := by
  cases hs : e.Sample offset with
  | some s => exact ⟨s, rfl⟩
  | none =>
    have := sampleFrom_none_lt e.Calls 0 offset hnn (le_refl 0) (by omega) h0 hs
    omega

/-- Without overflow the "Node.js Wallclock Profiler", started after `j` probes
with `n` more probes up to the end of the trace, makes `n + 1` probes and adds
the samples of the probes `j + 1 .. j + n`. -/
theorem nodeLoop_exact {σ : Type} (add : σ → StackTrace → σ) (e : ExecutionTrace) (K : Nat)
    (hnn : ∀ s ∈ e.Calls, 0 ≤ s.Duration)
    (hK1 : (K : Int) * nodePeriod ≤ totalDur e.Calls)
    (hK2 : totalDur e.Calls < ((K : Int) + 1) * nodePeriod)
    (hK3 : ((K : Int) + 1) * nodePeriod < 9223372036854775808)
    (n j : Nat) (hj : j + n = K) (p : σ) :
    nodeLoop add e (n + 1) ((j : Int) * nodePeriod) p =
      some (((List.range' (j + 1) n).filterMap (probeSample e)).foldl add p) := by
  rw [nodePeriod_eq] at hK1 hK2 hK3
  induction n generalizing j p with
  | zero =>
    have hnext : (j : Int) * nodePeriod + nodePeriod = ((j + 1 : Nat) : Int) * nodePeriod := by
      push_cast
      ring
    have hw : wrap64 (((j + 1 : Nat) : Int) * nodePeriod) = ((j + 1 : Nat) : Int) * nodePeriod := by
      rw [nodePeriod_eq]
      unfold wrap64
      push_cast
      omega
    have hs : e.Sample (((j + 1 : Nat) : Int) * nodePeriod) = none := by
      cases hs : e.Sample (((j + 1 : Nat) : Int) * nodePeriod) with
      | none => rfl
      | some s =>
        have := Sample_some_le e _ s hnn (by omega) hs
        rw [nodePeriod_eq] at this
        push_cast at this
        omega
    rw [nodeLoop, hnext, hw, hs]
    rfl
  | succ n ih =>
    have hnext : (j : Int) * nodePeriod + nodePeriod = ((j + 1 : Nat) : Int) * nodePeriod := by
      push_cast
      ring
    have hw : wrap64 (((j + 1 : Nat) : Int) * nodePeriod) = ((j + 1 : Nat) : Int) * nodePeriod := by
      rw [nodePeriod_eq]
      unfold wrap64
      push_cast
      omega
    obtain ⟨s, hs⟩ := Sample_some_of_le e (((j + 1 : Nat) : Int) * nodePeriod) hnn (by omega)
      (by rw [nodePeriod_eq]; push_cast; omega) (by rw [nodePeriod_eq]; push_cast; omega)
    have ih1 := ih (j + 1) (by omega)
    rw [nodeLoop, hnext, hw, hs]
    simp only []
    rw [List.range'_succ, List.filterMap_cons]
    have hps : probeSample e (j + 1) =
        if s.CPU then some (s.Copy.setDuration nodePeriod) else none := by
      simp only [probeSample, hs]
    rw [hps]
    cases hc : s.CPU
    · simp only [Bool.false_eq_true, if_false]
      exact ih1 p
    · simp only [if_true, List.foldl_cons]
      exact ih1 _

/-- Without overflow the "Node.js Wallclock Profiler" has not returned as long as
its probes are within the trace. -/
theorem nodeLoop_short {σ : Type} (add : σ → StackTrace → σ) (e : ExecutionTrace) (K : Nat)
    (hnn : ∀ s ∈ e.Calls, 0 ≤ s.Duration)
    (hK1 : (K : Int) * nodePeriod ≤ totalDur e.Calls)
    (hK2 : totalDur e.Calls < ((K : Int) + 1) * nodePeriod)
    (hK3 : ((K : Int) + 1) * nodePeriod < 9223372036854775808)
    (fuel j : Nat) (hj : j + fuel ≤ K) (p : σ) :
    nodeLoop add e fuel ((j : Int) * nodePeriod) p = none := by
  rw [nodePeriod_eq] at hK1 hK2 hK3
  induction fuel generalizing j p with
  | zero => rfl
  | succ fuel ih =>
    have hnext : (j : Int) * nodePeriod + nodePeriod = ((j + 1 : Nat) : Int) * nodePeriod := by
      push_cast
      ring
    have hw : wrap64 (((j + 1 : Nat) : Int) * nodePeriod) = ((j + 1 : Nat) : Int) * nodePeriod := by
      rw [nodePeriod_eq]
      unfold wrap64
      push_cast
      omega
    obtain ⟨s, hs⟩ := Sample_some_of_le e (((j + 1 : Nat) : Int) * nodePeriod) hnn (by omega)
      (by rw [nodePeriod_eq]; push_cast; omega) (by rw [nodePeriod_eq]; push_cast; omega)
    rw [nodeLoop, hnext, hw, hs]
    simp only []
    split
    · exact ih (j + 1) (by omega) _
    · exact ih (j + 1) (by omega) _

theorem probeSample_some (e : ExecutionTrace) (k : Nat) (x : StackTrace)
    (h : probeSample e k = some x) :
    ∃ s, e.Sample (k * nodePeriod) = some s ∧ s.CPU = true ∧
      x = s.Copy.setDuration nodePeriod := by
  unfold probeSample at h
  cases hs : e.Sample (k * nodePeriod) with
  | none => simp [hs] at h
  | some s =>
    simp only [hs] at h
    split at h
    · rename_i hc
      simp only [Option.some.injEq] at h
      exact ⟨s, rfl, hc, h.symm⟩
    · exact Option.noConfusion h

theorem probeSamples_mem (e : ExecutionTrace) (K : Nat) (x : StackTrace)
    (h : x ∈ probeSamples e K) :
    ∃ (k : Nat) (s : StackTrace), 1 ≤ k ∧ k ≤ K ∧ e.Sample (k * nodePeriod) = some s ∧
      s.CPU = true ∧ x = s.Copy.setDuration nodePeriod := by
  unfold probeSamples at h
  obtain ⟨k, hk, hx⟩ := List.mem_filterMap.mp h
  obtain ⟨s, hs, hc, hxs⟩ := probeSample_some e k x hx
  have hr := List.mem_range'_1.mp hk
  exact ⟨k, s, hr.1, by omega, hs, hc, hxs⟩

/-- The samples among those of a list of probes that carry the identity of `x`
are as many as the probes that find an on-CPU segment with that identity. -/
theorem probe_filter_length (e : ExecutionTrace) (x : StackTrace) (ks : List Nat) :
    ((ks.filterMap (probeSample e)).filter (fun y => y.Equal x)).length =
      (ks.filter (fun (k : Nat) =>
        match e.Sample ((k : Int) * nodePeriod) with
        | some s => s.CPU && s.Copy.Equal x
        | none => false)).length := by
  induction ks with
  | nil => rfl
  | cons k ks ih =>
    rw [List.filterMap_cons, List.filter_cons]
    cases hs : e.Sample (k * nodePeriod) with
    | none =>
      have hp : probeSample e k = none := by simp only [probeSample, hs]
      simp only [hp, Bool.false_eq_true, if_false]
      exact ih
    | some s =>
      cases hc : s.CPU
      · have hp : probeSample e k = none := by simp [probeSample, hs, hc]
        simp only [hp, hc, Bool.false_and, Bool.false_eq_true, if_false]
        exact ih
      · have hp : probeSample e k = some (s.Copy.setDuration nodePeriod) := by
          simp [probeSample, hs, hc]
        have heq : (s.Copy.setDuration nodePeriod).Equal x = s.Copy.Equal x := rfl
        simp only [hp, hc, Bool.true_and, List.filter_cons, heq]
        cases hx : s.Copy.Equal x
        · simp only [Bool.false_eq_true, if_false]
          exact ih
        · simp only [if_true, List.length_cons]
          rw [ih]

theorem nodup_keys_Unique (p : Profile) (h : (p.Stacks.map stackKey).Nodup) : p.Unique := by
  unfold Profile.Unique
  have h1 : p.Stacks.Pairwise (fun a b => stackKey a ≠ stackKey b) := List.pairwise_map.mp h
  exact List.Pairwise.imp (fun hab => (Equal_false_iff_key _ _).mpr hab) h1

/-- The profile built from the samples of the probes `1 .. K`, when `K` periods
fit in the trace and the trace lasts less than 2^63 ns: its elements have
pairwise different identities, each lasts one period per probe that hit its
identity, every identity hit is present, and the durations sum to at most `K`
periods. -/
theorem probeProfile_spec (e : ExecutionTrace) (K : Nat)
    (hK1 : (K : Int) * nodePeriod ≤ totalDur e.Calls)
    (hB : totalDur e.Calls < 9223372036854775808) (p : Profile)
    (hp : p = (probeSamples e K).foldl (fun q s => q.Add s) (Profile.mk [])) :
    p.Unique ∧
      (∀ x ∈ p.Stacks, 1 ≤ probeHits e K x ∧ x.Duration = nodePeriod * probeHits e K x) ∧
      (∀ x ∈ probeSamples e K, ∃ y ∈ p.Stacks, y.Equal x = true) ∧
      totalDur p.Stacks ≤ (K : Int) * nodePeriod := by
  subst hp
  have hdur : ∀ x ∈ probeSamples e K, x.Duration = nodePeriod := by
    intro x hx
    obtain ⟨_, s, _, _, _, _, h⟩ := probeSamples_mem e K x hx
    rw [h]
    rfl
  have hnil : ∀ x ∈ probeSamples e K, x.Frames ≠ none := by
    intro x hx
    obtain ⟨_, s, _, _, _, _, h⟩ := probeSamples_mem e K x hx
    rw [h]
    simp [StackTrace.setDuration, StackTrace.Copy]
  have hlen : (probeSamples e K).length ≤ K := by
    have := List.length_filterMap_le (probeSample e) (List.range' 1 K)
    simpa [probeSamples] using this
  have hnnl : ∀ x ∈ probeSamples e K, 0 ≤ x.Duration := by
    intro x hx
    rw [hdur x hx]
    decide
  have htot := totalDur_of_const hdur
  have habs := absTotal_eq_totalDur hnnl
  have hbound : absTotal (probeSamples e K) < 9223372036854775808 := by
    rw [habs, htot]
    rw [nodePeriod_eq] at hK1 ⊢
    have : ((probeSamples e K).length : Int) ≤ K := by exact_mod_cast hlen
    omega
  have hkeys := keys_foldl_Add (probeSamples e K) ⟨[]⟩ hnil (by simp)
  have hsum := (foldl_Add_total (probeSamples e K) ⟨[]⟩ (by simpa using hbound)).1
  refine ⟨nodup_keys_Unique _ hkeys.1, fun x hx => ?_, fun x hx => ?_, ?_⟩
  · have hmem : stackKey x ∈
        ((probeSamples e K).foldl (fun q s => q.Add s) (Profile.mk [])).Stacks.map
          stackKey :=
      List.mem_map_of_mem _ hx
    obtain ⟨st, hst⟩ := filter_Equal_singleton _ x hkeys.1 hmem
    have hxin : x ∈ ((probeSamples e K).foldl (fun q s => q.Add s)
        (Profile.mk [])).Stacks.filter (fun y => y.Equal x) :=
      List.mem_filter.mpr ⟨hx, (Equal_iff_key x x).mpr rfl⟩
    rw [hst, List.mem_singleton] at hxin
    have hft := foldl_Add_filter_total (probeSamples e K) ⟨[]⟩ x hnil (by simpa using hbound)
    rw [hst, ← hxin] at hft
    have hfdur : ∀ y ∈ (probeSamples e K).filter (fun y => y.Equal x),
        y.Duration = nodePeriod := fun y hy => hdur y (List.mem_of_mem_filter hy)
    have hcount : ((probeSamples e K).filter (fun y => y.Equal x)).length =
        probeHits e K x := by
      unfold probeHits probeSamples
      exact probe_filter_length e x (List.range' 1 K)
    rw [totalDur_of_const hfdur, hcount] at hft
    simp only [totalDur_cons, totalDur_nil, List.filter_nil, add_zero, zero_add] at hft
    refine ⟨?_, hft⟩
    rcases (hkeys.2 (stackKey x)).mp hmem with h | h
    · simp at h
    · obtain ⟨y, hy, hk⟩ := List.mem_map.mp h
      have hyin : y ∈ (probeSamples e K).filter (fun y => y.Equal x) :=
        List.mem_filter.mpr ⟨hy, (Equal_iff_key y x).mpr hk⟩
      rw [← hcount]
      exact List.length_pos_of_mem hyin
  · have hmem := (hkeys.2 (stackKey x)).mpr (Or.inr (List.mem_map_of_mem _ hx))
    obtain ⟨y, hy, hk⟩ := List.mem_map.mp hmem
    exact ⟨y, hy, (Equal_iff_key y x).mpr hk⟩
  · rw [hsum, htot]
    simp only [totalDur_nil, zero_add]
    rw [nodePeriod_eq]
    have : ((probeSamples e K).length : Int) ≤ K := by exact_mod_cast hlen
    omega

/-- On a trace with non-negative durations and a total below 2^63 ns, a probe
offset `k * period` (k >= 1) resolves to the segment at position `i` only if it
lands inside it; so a segment shorter than one period is resolved by at most one
probe offset. -/
theorem SampleIndex_inside (e : ExecutionTrace) (i : Nat)
    (hnn : ∀ s ∈ e.Calls, 0 ≤ s.Duration)
    (hB : totalDur e.Calls < 9223372036854775808) :
    (∀ k : Nat, 1 ≤ k → e.SampleIndex (k * nodePeriod) = some i →
        totalDur (e.Calls.take i) < k * nodePeriod ∧
          k * nodePeriod ≤ totalDur (e.Calls.take (i + 1))) ∧
      (∀ s, e.Calls[i]? = some s → s.Duration < nodePeriod →
        ∀ k k2 : Nat, 1 ≤ k → 1 ≤ k2 → e.SampleIndex (k * nodePeriod) = some i →
          e.SampleIndex (k2 * nodePeriod) = some i → k = k2) := by
  have hin : ∀ k : Nat, 1 ≤ k → e.SampleIndex (k * nodePeriod) = some i →
      totalDur (e.Calls.take i) < k * nodePeriod ∧
        k * nodePeriod ≤ totalDur (e.Calls.take (i + 1)) := by
    intro k hk h
    have hoff : (0 : Int) < k * nodePeriod := by
      rw [nodePeriod_eq]
      omega
    have := sampleIndexFrom_inside e.Calls 0 _ i hnn (le_refl 0) (by omega) hoff h
    simp only [zero_add] at this
    exact ⟨this.2.1, this.2.2⟩
  refine ⟨hin, ?_⟩
  intro s hs hshort k k2 hk hk2 h1 h2
  have a1 := hin k hk h1
  have a2 := hin k2 hk2 h2
  rw [totalDur_take_succ e.Calls i s hs] at a1 a2
  rw [nodePeriod_eq] at hshort a1 a2
  omega

theorem probeIndex_some (e : ExecutionTrace) (k j : Nat) (h : probeIndex e k = some j) :
    e.SampleIndex ((k : Int) * nodePeriod) = some j ∧
      ∃ s, e.Calls[j]? = some s ∧ s.CPU = true := by
  unfold probeIndex at h
  cases hi : e.SampleIndex ((k : Int) * nodePeriod) with
  | none => simp [hi] at h
  | some j2 =>
    simp only [hi] at h
    cases hc : e.Calls[j2]? with
    | none => simp [hc] at h
    | some s =>
      simp only [hc] at h
      split at h
      · rename_i hcpu
        simp only [Option.some.injEq] at h
        rw [← h]
        exact ⟨rfl, s, hc, hcpu⟩
      · exact Option.noConfusion h

/-- The sample of a probe is the sample recorded for the position the probe
resolves to. -/
theorem probeSample_eq_index (e : ExecutionTrace) (k : Nat) :
    probeSample e k = (probeIndex e k).bind (sampleAt e) := by
  unfold probeSample probeIndex
  have hs : e.Sample ((k : Int) * nodePeriod) =
      (e.SampleIndex ((k : Int) * nodePeriod)).bind (fun j => e.Calls[j]?) :=
    sampleFrom_eq_index 0 e.Calls _
  rw [hs]
  cases hi : e.SampleIndex ((k : Int) * nodePeriod) with
  | none => rfl
  | some j =>
    simp only [Option.some_bind]
    cases hc : e.Calls[j]? with
    | none => rfl
    | some s =>
      cases hcpu : s.CPU
      · simp [hcpu]
      · simp [sampleAt, hc, hcpu]

theorem probeSamples_eq_indices (e : ExecutionTrace) (K : Nat) :
    probeSamples e K = (probeIndices e K).filterMap (sampleAt e) := by
  unfold probeSamples probeIndices
  rw [List.filterMap_filterMap]
  congr 1
  funext k
  exact probeSample_eq_index e k

theorem probeSamples_length (e : ExecutionTrace) (K : Nat) :
    (probeSamples e K).length = (probeIndices e K).length := by
  rw [probeSamples_eq_indices]
  have hall : ∀ j ∈ probeIndices e K, ∃ x, sampleAt e j = some x := by
    intro j hj
    obtain ⟨k, _, hk⟩ := List.mem_filterMap.mp hj
    obtain ⟨_, s, hs, _⟩ := probeIndex_some e k j hk
    exact ⟨s.Copy.setDuration nodePeriod, by simp [sampleAt, hs]⟩
  generalize probeIndices e K = js at hall
  induction js with
  | nil => rfl
  | cons j js ih =>
    obtain ⟨x, hx⟩ := hall j (List.mem_cons_self _ _)
    rw [List.filterMap_cons, hx]
    simp only [List.length_cons]
    rw [ih (fun j2 hj2 => hall j2 (List.mem_cons_of_mem _ hj2))]

/-- When at most one element of a list without repetitions is mapped to `i`, `i`
occurs at most once among the images. -/
theorem count_filterMap_le_one (f : Nat → Option Nat) (i : Nat) (ks : List Nat)
    (hnd : ks.Nodup)
    (huniq : ∀ k ∈ ks, ∀ k2 ∈ ks, f k = some i → f k2 = some i → k = k2) :
    (ks.filterMap f).count i ≤ 1 := by
  induction ks with
  | nil => simp
  | cons k ks ih =>
    rw [List.nodup_cons] at hnd
    have ih1 := ih hnd.2 (fun a ha b hb => huniq a (List.mem_cons_of_mem _ ha) b
      (List.mem_cons_of_mem _ hb))
    rw [List.filterMap_cons]
    cases hf : f k with
    | none => exact ih1
    | some j =>
      simp only []
      by_cases hji : j = i
      · have hzero : (ks.filterMap f).count i = 0 := by
          rw [List.count_eq_zero]
          intro hmem
          obtain ⟨k2, hk2, hfk2⟩ := List.mem_filterMap.mp hmem
          have := huniq k (List.mem_cons_self _ _) k2 (List.mem_cons_of_mem _ hk2)
            (by rw [hf, hji]) hfk2
          rw [← this] at hk2
          exact hnd.1 hk2
        rw [hji, List.count_cons_self, hzero]
      · rw [List.count_cons_of_ne (fun h => hji h.symm)]
        exact ih1

/-- The loop of the "Node.js Wallclock Profiler" with its int64 offset: started
after `j` probes, when the probes `j + 1 .. j + n`, at the offsets
`wrap64 (k * period)`, each find a segment and the probe after them finds none,
the loop makes `n + 1` probes and adds the samples of the first `n`. -/
theorem nodeLoop_wrapped {σ : Type} (add : σ → StackTrace → σ) (e : ExecutionTrace)
    (n j : Nat) (p : σ)
    (hin : ∀ k : Nat, j < k → k ≤ j + n →
      ∃ s, e.Sample (wrap64 ((k : Int) * nodePeriod)) = some s)
    (hout : e.Sample (wrap64 (((j + n + 1 : Nat) : Int) * nodePeriod)) = none) :
    nodeLoop add e (n + 1) (wrap64 ((j : Int) * nodePeriod)) p =
      some (((List.range' (j + 1) n).filterMap (wrappedProbeSample e)).foldl add p) := by
  induction n generalizing j p with
  | zero =>
    have hoff : wrap64 (wrap64 ((j : Int) * nodePeriod) + nodePeriod) =
        wrap64 (((j + 0 + 1 : Nat) : Int) * nodePeriod) := by
      rw [wrap64_add_wrap64]
      push_cast
      ring_nf
    rw [nodeLoop, hoff, hout]
    rfl
  | succ n ih =>
    have hoff : wrap64 (wrap64 ((j : Int) * nodePeriod) + nodePeriod) =
        wrap64 (((j + 1 : Nat) : Int) * nodePeriod) := by
      rw [wrap64_add_wrap64]
      push_cast
      ring_nf
    obtain ⟨s, hs⟩ := hin (j + 1) (by omega) (by omega)
    have ih1 := fun q => ih (j + 1) q (fun k hk1 hk2 => hin k (by omega) (by omega))
      (by rw [show j + 1 + n + 1 = j + (n + 1) + 1 by omega]; exact hout)
    rw [nodeLoop, hoff, hs]
    simp only []
    rw [List.range'_succ, List.filterMap_cons]
    have hps : wrappedProbeSample e (j + 1) =
        if s.CPU then some (s.Copy.setDuration nodePeriod) else none := by
      simp only [wrappedProbeSample, hs]
    rw [hps]
    cases hc : s.CPU
    · simp only [Bool.false_eq_true, if_false]
      exact ih1 p
    · simp only [if_true, List.foldl_cons]
      exact ih1 _

theorem Sample_wrapProbeTrace (o : Int) :
    wrapProbeTrace.Sample o =
      if o ≤ 5000000 then some ⟨5 * Millisecond, some ["main", "a"], true⟩
      else if o ≤ 9223372036847086790 then
        some ⟨9223372036842086790, some ["main", "b"], false⟩
      else none := by
  have h1 : wrap64 (0 + 5 * Millisecond) = 5000000 := by decide
  have h2 : wrap64 (5000000 + 9223372036842086790) = 9223372036847086790 := by decide
  simp only [ExecutionTrace.Sample, wrapProbeTrace, sampleFrom, h1, h2]

/-- No exact probe offset `k * period` resolves to the first segment of
`wrapProbeTrace`: it ends at 5 ms, before the first probe. -/
theorem SampleIndex_wrapProbeTrace (k : Nat) (hk : 1 ≤ k) :
    wrapProbeTrace.SampleIndex ((k : Int) * nodePeriod) ≠ some 0 := by
  have h1 : wrap64 (0 + 5 * Millisecond) = 5000000 := by decide
  have hgt : ¬ (k : Int) * nodePeriod ≤ 5000000 := by
    rw [nodePeriod_eq]
    omega
  simp only [ExecutionTrace.SampleIndex, wrapProbeTrace, sampleIndexFrom, h1, if_neg hgt]
  intro h
  obtain ⟨a, _, ha⟩ := Option.map_eq_some'.mp h
  omega

/-- On `wrapProbeTrace` the "Node.js Wallclock Profiler" returns at its
2739341522339th probe, and the probe 913113840780, whose int64 offset has wrapped
to a negative value, records a sample for the first segment. -/
theorem nodeSamples_wrapProbeTrace :
    ∃ l, nodeSamples 2739341522339 wrapProbeTrace = some l ∧
      (⟨10101010, some ["main", "a"], true⟩ : StackTrace) ∈ l := by
  have hin : ∀ k : Nat, 0 < k → k ≤ 0 + 2739341522338 →
      ∃ s, wrapProbeTrace.Sample (wrap64 ((k : Int) * nodePeriod)) = some s := by
    intro k hk1 hk2
    have hle := node_offsets_within k hk1 (by omega)
    rw [Sample_wrapProbeTrace]
    by_cases h : wrap64 ((k : Int) * nodePeriod) ≤ 5000000
    · exact ⟨_, if_pos h⟩
    · rw [if_neg h, if_pos hle]
      exact ⟨_, rfl⟩
  have hout : wrapProbeTrace.Sample
      (wrap64 (((0 + 2739341522338 + 1 : Nat) : Int) * nodePeriod)) = none := by
    have hw : wrap64 (((0 + 2739341522338 + 1 : Nat) : Int) * nodePeriod) =
        9223372036851910774 := by decide
    rw [hw, Sample_wrapProbeTrace]
    decide
  have h := nodeLoop_wrapped (fun l s => l ++ [s]) wrapProbeTrace 2739341522338 0 [] hin hout
  have hz : wrap64 (((0 : Nat) : Int) * nodePeriod) = 0 := by decide
  rw [hz, foldl_append_singleton, List.nil_append] at h
  refine ⟨_, h, ?_⟩
  apply List.mem_filterMap.mpr
  refine ⟨913113840780, List.mem_range'_1.mpr ⟨by omega, by omega⟩, ?_⟩
  have hw : wrap64 (((913113840780 : Nat) : Int) * nodePeriod) = -9223372036852363816 := by
    decide
  simp only [wrappedProbeSample, hw, Sample_wrapProbeTrace]
  decide

/-- The durations of the profile built from the samples of the probes `1 .. K`
sum to one period per sample, when `K` periods fit in the trace and the trace
lasts less than 2^63 ns. -/
theorem probeProfile_total (e : ExecutionTrace) (K : Nat)
    (hK1 : (K : Int) * nodePeriod ≤ totalDur e.Calls)
    (hB : totalDur e.Calls < 9223372036854775808) :
    totalDur ((probeSamples e K).foldl (fun q s => q.Add s) (Profile.mk [])).Stacks =
      nodePeriod * (probeSamples e K).length := by
  have hdur : ∀ x ∈ probeSamples e K, x.Duration = nodePeriod := by
    intro x hx
    obtain ⟨_, s, _, _, _, _, h⟩ := probeSamples_mem e K x hx
    rw [h]
    rfl
  have hlen : (probeSamples e K).length ≤ K := by
    have := List.length_filterMap_le (probeSample e) (List.range' 1 K)
    simpa [probeSamples] using this
  have hnnl : ∀ x ∈ probeSamples e K, 0 ≤ x.Duration := by
    intro x hx
    rw [hdur x hx]
    decide
  have htot := totalDur_of_const hdur
  have habs := absTotal_eq_totalDur hnnl
  have hbound : absTotal (probeSamples e K) < 9223372036854775808 := by
    rw [habs, htot]
    rw [nodePeriod_eq] at hK1 ⊢
    have : ((probeSamples e K).length : Int) ≤ K := by exact_mod_cast hlen
    omega
  have hsum := (foldl_Add_total (probeSamples e K) ⟨[]⟩ (by simpa using hbound)).1
  rw [hsum, htot]
  simp

/-! ## Claims -/

/-! ### C1 -/

/-- C1 (counterexample): on the trace of two on-CPU segments `main;workA` of
2^62 ns each, the "Perfect Wallclock Profiler" returns one element whose int64
duration has wrapped to -2^63, while the segments sum to 2^63. -/
theorem C1_conservation_fails_on_overflow :
    totalDur (perfectWallclock overflowTrace).Stacks = -9223372036854775808 ∧
      totalDur overflowTrace.Calls = 9223372036854775808 ∧
      totalDur (perfectWallclock overflowTrace).Stacks ≠ totalDur overflowTrace.Calls := by
  decide

/-- C1 (amended): for every execution trace in which the absolute values of the
segment durations sum to less than 2^63 ns, the durations of the profile of the
"Perfect Wallclock Profiler" sum exactly to the sum of the durations of all
segments of the trace. -/
theorem C1_wallclock_conservation (e : ExecutionTrace)
    (h : absTotal e.Calls < 9223372036854775808) :
    totalDur (perfectWallclock e).Stacks = totalDur e.Calls := by
  have h1 := (foldl_Add_total e.Calls ⟨[]⟩ (by simpa using h)).1
  simpa [perfectWallclock] using h1

/-- C1 (witness): the amended statement at the trace of `main`'s three segments. -/
theorem C1_wallclock_conservation_witness :
    absTotal demoTrace.Calls < 9223372036854775808 ∧
      totalDur (perfectWallclock demoTrace).Stacks = totalDur demoTrace.Calls :=
  ⟨by decide, C1_wallclock_conservation demoTrace (by decide)⟩

/-! ### C2 -/

/-- C2 (counterexample): on the trace of three on-CPU segments `main;workA` of
2^62 ns each (non-negative int64 durations, on-CPU total C = 3 * 2^62 ns) the
"Go CPU Profiler" returns one element whose int64 duration has wrapped to a
negative value, so the profile durations do not sum to 10ms * floor(C / 10ms). -/
theorem C2_profile_sum_fails_on_overflow :
    (∀ s ∈ overflowTrace3.Calls, 0 ≤ s.Duration ∧ s.Duration < 9223372036854775808) ∧
      totalDur (goProfile overflowTrace3).Stacks = -4611686018429551616 ∧
      10 * Millisecond * (cpuTotal overflowTrace3.Calls / (10 * Millisecond)) =
        13835058055280000000 ∧
      totalDur (goProfile overflowTrace3).Stacks ≠
        10 * Millisecond * (cpuTotal overflowTrace3.Calls / (10 * Millisecond)) := by
  rw [goProfile_overflowTrace3]
  decide

/-- C2 (amended): for every execution trace whose segments have non-negative
(int64) durations, the "Go CPU Profiler" passes to `Add` exactly floor(C / 10ms)
samples, each of duration exactly 10ms, where C is the sum of the durations of
the on-CPU segments, and its profile is the result of these `Add`s; whenever
10ms * floor(C / 10ms) is below 2^63 ns, the profile durations sum to
10ms * floor(C / 10ms).  In particular, for a trace that is a single on-CPU
segment of exactly 10ms, exactly one sample of duration 10ms is added and the
profile is one element of duration 10ms. -/
theorem C2_jiffy_sample_count (e : ExecutionTrace)
    (hnn : ∀ s ∈ e.Calls, 0 ≤ s.Duration)
    (hty : ∀ s ∈ e.Calls, s.Duration < 9223372036854775808) :
    goPeriod = 10 * Millisecond ∧
      ((goSamples e).length : Int) = cpuTotal e.Calls / (10 * Millisecond) ∧
      (∀ x ∈ goSamples e, x.Duration = 10 * Millisecond) ∧
      goProfile e = (goSamples e).foldl (fun q s => q.Add s) ⟨[]⟩ ∧
      (10 * Millisecond * (cpuTotal e.Calls / (10 * Millisecond)) < 9223372036854775808 →
        totalDur (goProfile e).Stacks =
          10 * Millisecond * (cpuTotal e.Calls / (10 * Millisecond))) ∧
      (∀ st, e.Calls = [st] → st.CPU = true → st.Duration = 10 * Millisecond →
        goSamples e = [st.Copy.setDuration (10 * Millisecond)] ∧
          goProfile e = ⟨[st.Copy.setDuration (10 * Millisecond)]⟩) := by
  have hP : goPeriod = 10 * Millisecond := by decide
  have hlen := goSamples_length e (fun s hs => ⟨hnn s hs, hty s hs⟩)
  rw [hP] at hlen
  refine ⟨hP, hlen, fun x hx => by rw [← hP]; exact goSamples_Duration e x hx,
    goProfile_eq_foldl e, fun hlt => ?_, fun st hst hc hd => ?_⟩
  · have h := goProfile_total e (by rw [hP, hlen]; exact hlt)
    rw [h, hP, hlen]
  · have hC : cpuTotal e.Calls / (10 * Millisecond) = 1 := by
      rw [hst, cpuTotal_cons, hc, hd]
      decide
    rw [hC] at hlen
    have hlen1 : (goSamples e).length = 1 := by omega
    have hsm : goSamples e = [st.Copy.setDuration (10 * Millisecond)] := by
      match hg : goSamples e, hlen1 with
      | [x], _ =>
        obtain ⟨s, hs, _, hx⟩ := goSamples_mem e x (by rw [hg]; exact List.mem_singleton_self x)
        rw [hst, List.mem_singleton] at hs
        rw [hx, hs, hP]
    refine ⟨hsm, ?_⟩
    rw [goProfile_eq_foldl, hsm]
    rfl

/-- C2 (witness): the amended statement at the trace of `main`'s three segments,
whose on-CPU total of 38 ms holds three full periods. -/
theorem C2_jiffy_sample_count_witness :
    ((goSamples demoTrace).length : Int) = 3 ∧
      totalDur (goProfile demoTrace).Stacks = 30 * Millisecond :=
  ⟨(C2_jiffy_sample_count demoTrace (by decide) (by decide)).2.1.trans (by decide),
    ((C2_jiffy_sample_count demoTrace (by decide) (by decide)).2.2.2.2.1 (by decide)).trans
      (by decide)⟩

/-! ### C3 -/

/-- C3 (counterexample): on the trace of one on-CPU segment `main` of
913113840779 periods (9223372036847086790 ns, non-negative) the int64 probe
offset of the "Node.js Wallclock Profiler" overflows before it passes the end of
the segment; the loop returns at its 2739341522339th probe, and the single
element of the returned profile has duration 9223372036841809764 ns, which is not
an integer multiple of the period 10101010 ns (the remainder is 4823984). -/
theorem C3_multiple_fails_on_overflow :
    (∀ s ∈ nodeOverflowTrace.Calls, 0 ≤ s.Duration) ∧
      nodeProfile 2739341522339 nodeOverflowTrace =
        some ⟨[⟨9223372036841809764, some ["main"], true⟩]⟩ ∧
      (9223372036841809764 : Int) % nodePeriod = 4823984 ∧
      ¬ ∃ k : Int, 0 < k ∧ (9223372036841809764 : Int) = k * nodePeriod := by
  refine ⟨by decide, nodeProfile_nodeOverflowTrace, by decide, ?_⟩
  rintro ⟨k, _, hk⟩
  rw [nodePeriod_eq] at hk
  omega

/-- C3 (amended): for every execution trace, every sample the
"Node.js Wallclock Profiler" adds to its profile is a copy of a trace segment with
its duration set to exactly one sampling period, 1s/99 = 10101010 ns, never the
probed segment's own duration; and for every execution trace with non-negative
segment durations whose total duration plus one period is below 2^63 ns, the
profiler returns and every element of the returned profile has a duration that
is a positive integer multiple of that period. -/
theorem C3_fixed_rate_quantization (e : ExecutionTrace) :
    nodePeriod = 10101010 ∧
      (∀ fuel l, nodeSamples fuel e = some l → ∀ x ∈ l,
        x.Duration = nodePeriod ∧ ∃ st ∈ e.Calls, x = st.Copy.setDuration nodePeriod) ∧
      ((∀ s ∈ e.Calls, 0 ≤ s.Duration) →
        totalDur e.Calls + nodePeriod < 9223372036854775808 →
        (∃ fuel p, nodeProfile fuel e = some p) ∧
          ∀ fuel p, nodeProfile fuel e = some p →
            ∀ x ∈ p.Stacks, ∃ k : Int, 0 < k ∧ x.Duration = k * nodePeriod) := by
  refine ⟨nodePeriod_eq, fun fuel l hl x hx => ?_, fun hnn hB => ⟨?_, ?_⟩⟩
  · obtain ⟨st, hst, _, h⟩ := nodeSamples_mem fuel e l hl x hx
    exact ⟨nodeSamples_Duration fuel e l hl x hx, st, hst, h⟩
  · exact nodeProfile_returns e hnn hB
  · exact fun fuel p hp => nodeProfile_multiples e hnn hB fuel p hp

/-- C3 (witness): the amended statement at the trace of `main`'s three segments. -/
theorem C3_fixed_rate_quantization_witness :
    (∃ fuel p, nodeProfile fuel demoTrace = some p) ∧
      ∀ fuel p, nodeProfile fuel demoTrace = some p →
        ∀ x ∈ p.Stacks, ∃ k : Int, 0 < k ∧ x.Duration = k * nodePeriod :=
  (C3_fixed_rate_quantization demoTrace).2.2 (by decide) (by decide)

/-! ### C4 -/

/-- C4: for every execution trace, every element of the profile returned by the
"Node.js Wallclock Profiler" and every element of the profile of the
"Go CPU Profiler" has cpu = true, and every sample either of them passes to `Add`
is a copy of a segment of the trace that has cpu = true.  (The Node.js loop does
return on every trace with non-negative durations whose total plus one period is
below 2^63 ns.) -/
theorem C4_off_cpu_exclusion (e : ExecutionTrace) :
    (∀ fuel p, nodeProfile fuel e = some p → ∀ x ∈ p.Stacks, x.CPU = true) ∧
      (∀ x ∈ (goProfile e).Stacks, x.CPU = true) ∧
      (∀ fuel l, nodeSamples fuel e = some l → ∀ x ∈ l, ∃ st ∈ e.Calls,
        st.CPU = true ∧ x = st.Copy.setDuration nodePeriod) ∧
      (∀ x ∈ goSamples e, ∃ st ∈ e.Calls,
        st.CPU = true ∧ x = st.Copy.setDuration goPeriod) ∧
      ((∀ s ∈ e.Calls, 0 ≤ s.Duration) →
        totalDur e.Calls + nodePeriod < 9223372036854775808 →
        ∃ fuel p, nodeProfile fuel e = some p) := by
  refine ⟨fun fuel p hp => ?_, ?_, fun fuel l hl => nodeSamples_mem fuel e l hl,
    goSamples_mem e, fun hnn hB => ?_⟩
  · rw [nodeProfile_eq_foldl] at hp
    cases hs : nodeSamples fuel e with
    | none => simp [hs] at hp
    | some l =>
      simp only [hs, Option.map_some', Option.some.injEq] at hp
      rw [← hp]
      apply foldl_Add_all_CPU l ⟨[]⟩ _ (by simp)
      intro s hsl
      obtain ⟨st, _, hc, hx⟩ := nodeSamples_mem fuel e l hs s hsl
      rw [hx]
      exact hc
  · rw [goProfile_eq_foldl]
    apply foldl_Add_all_CPU (goSamples e) ⟨[]⟩ _ (by simp)
    intro s hsl
    obtain ⟨st, _, hc, hx⟩ := goSamples_mem e s hsl
    rw [hx]
    exact hc
  · exact nodeProfile_returns e hnn hB

/-- C4 (witness): on the trace of `main`'s three segments the
"Node.js Wallclock Profiler" returns after ten probes, and every element of its
profile is on CPU. -/
theorem C4_off_cpu_exclusion_witness :
    ∃ p, nodeProfile 10 demoTrace = some p ∧ ∀ x ∈ p.Stacks, x.CPU = true :=
  ⟨⟨[⟨10101010, some ["main", "workA"], true⟩, ⟨20202020, some ["main", "workB"], true⟩]⟩,
    by decide,
    (C4_off_cpu_exclusion demoTrace).1 10 _ (by decide)⟩

/-! ### C5 -/

/-- C5 (counterexample): on the trace of two on-CPU segments `main;workA` of
2^62 ns each, the "Perfect CPU Profiler" returns one element whose int64
duration has wrapped to -2^63, while the on-CPU segments sum to 2^63. -/
theorem C5_cpu_conservation_fails_on_overflow :
    totalDur (perfectCPU overflowTrace).Stacks = -9223372036854775808 ∧
      totalDur (overflowTrace.Calls.filter (fun s => s.CPU)) = 9223372036854775808 ∧
      totalDur (perfectCPU overflowTrace).Stacks ≠
        totalDur (overflowTrace.Calls.filter (fun s => s.CPU)) := by
  decide

/-- C5 (amended): for every execution trace in which the absolute values of the
durations of the on-CPU segments sum to less than 2^63 ns, the durations of the
profile of the "Perfect CPU Profiler" sum exactly to the sum of the durations of
the segments that have cpu = true. -/
theorem C5_cpu_conservation (e : ExecutionTrace)
    (h : absTotal (e.Calls.filter (fun s => s.CPU)) < 9223372036854775808) :
    totalDur (perfectCPU e).Stacks = totalDur (e.Calls.filter (fun s => s.CPU)) := by
  have h1 := (foldl_Add_total (e.Calls.filter (fun s => s.CPU)) ⟨[]⟩ (by simpa using h)).1
  rw [perfectCPU, perfectCPU_eq_filter]
  simpa using h1

/-- C5 (witness): the amended statement at the trace of `main`'s three segments,
whose on-CPU segments last 13 ms + 25 ms. -/
theorem C5_cpu_conservation_witness :
    absTotal (demoTrace.Calls.filter (fun s => s.CPU)) < 9223372036854775808 ∧
      totalDur (perfectCPU demoTrace).Stacks = 38 * Millisecond :=
  ⟨by decide, (C5_cpu_conservation demoTrace (by decide)).trans (by decide)⟩

/-! ### C6 -/

/-- C6 (counterexample): on a trace of two segments with nil frames the profile of
the "Perfect Wallclock Profiler" holds two elements (with empty, non-nil frames),
none of them `Equal` to the segments and both with the same frames and cpu flag;
and on the trace of two segments `main;workA` of 2^62 ns each its single element
has duration -2^63, not the 2^63 ns of the segments with that identity. -/
theorem C6_wallclock_content_fails :
    (perfectWallclock ⟨[nilSample, nilSample]⟩).Stacks =
        [⟨1, some [], false⟩, ⟨1, some [], false⟩] ∧
      (perfectWallclock ⟨[nilSample, nilSample]⟩).Stacks.filter
        (fun x => x.Equal nilSample) = [] ∧
      (perfectWallclock overflowTrace).Stacks =
        [⟨-9223372036854775808, some ["main", "workA"], true⟩] ∧
      totalDur (overflowTrace.Calls.filter
        (fun x => x.Equal ⟨0, some ["main", "workA"], true⟩)) = 9223372036854775808 := by
  decide

/-- C6 (amended): for every execution trace whose segments all have non-nil frame
slices and in which the absolute values of the segment durations sum to less
than 2^63 ns, and for every stack identity (frames, cpu flag) that occurs in it,
the profile of the "Perfect Wallclock Profiler" contains exactly one element with
that identity, its duration is the sum of the durations of all trace segments
with that identity, and the profile has no element whose identity does not occur
in the trace. -/
theorem C6_wallclock_content (e : ExecutionTrace)
    (hnil : ∀ s ∈ e.Calls, s.Frames ≠ none)
    (hov : absTotal e.Calls < 9223372036854775808) :
    (∀ s ∈ e.Calls, ∃ st,
        (perfectWallclock e).Stacks.filter (fun x => x.Equal s) = [st] ∧
          st.Duration = totalDur (e.Calls.filter (fun x => x.Equal s))) ∧
      (∀ st ∈ (perfectWallclock e).Stacks, ∃ s ∈ e.Calls, st.Equal s = true) := by
  have hkeys := keys_foldl_Add e.Calls ⟨[]⟩ hnil (by simp)
  constructor
  · intro s hs
    have hmem : stackKey s ∈ (perfectWallclock e).Stacks.map stackKey :=
      (hkeys.2 (stackKey s)).mpr (Or.inr (List.mem_map_of_mem _ hs))
    obtain ⟨st, hst⟩ := filter_Equal_singleton _ s hkeys.1 hmem
    refine ⟨st, hst, ?_⟩
    have htot := foldl_Add_filter_total e.Calls ⟨[]⟩ s hnil (by simpa using hov)
    have hst2 : (e.Calls.foldl (fun q s => q.Add s) (Profile.mk [])).Stacks.filter
        (fun x => x.Equal s) = [st] := hst
    rw [hst2] at htot
    simpa using htot
  · intro st hst
    have hmem : stackKey st ∈ (perfectWallclock e).Stacks.map stackKey :=
      List.mem_map_of_mem _ hst
    rcases (hkeys.2 (stackKey st)).mp hmem with h | h
    · simp at h
    · obtain ⟨s, hs, hk⟩ := List.mem_map.mp h
      exact ⟨s, hs, (Equal_iff_key st s).mpr hk.symm⟩

/-- C6 (witness): the amended statement at two rounds of `main`'s three segments. -/
theorem C6_wallclock_content_witness :
    (∀ s ∈ demoTwice.Calls, ∃ st,
        (perfectWallclock demoTwice).Stacks.filter (fun x => x.Equal s) = [st] ∧
          st.Duration = totalDur (demoTwice.Calls.filter (fun x => x.Equal s))) ∧
      (∀ st ∈ (perfectWallclock demoTwice).Stacks, ∃ s ∈ demoTwice.Calls, st.Equal s = true) :=
  C6_wallclock_content demoTwice (by decide) (by decide)

/-! ### C7 -/

/-- C7 (failing input): adding the same sample with nil frames twice to the empty
profile leaves two elements, both with the empty non-nil frame slice and the same
cpu flag, which are `Equal`: `Copy` turns the nil slice into an empty one that
`reflect.DeepEqual` tells from nil, so the second `Add` finds no match. -/
theorem C7_unique_fails_on_nil_frames :
    ((Profile.mk []).Add nilSample).Add nilSample =
        ⟨[⟨1, some [], false⟩, ⟨1, some [], false⟩]⟩ ∧
      ¬ (((Profile.mk []).Add nilSample).Add nilSample).Unique ∧
      (⟨1, some [], false⟩ : StackTrace).Equal ⟨1, some [], false⟩ = true := by
  decide

/-! ### C8 -/

/-- C8 (counterexample): two samples with nil frames and the same cpu flag leave
two elements instead of one; and two samples with the same non-nil frames whose
durations add up to 2^63 leave one element of duration -2^63. -/
theorem C8_merge_fails :
    (((Profile.mk []).Add nilSample).Add nilSample).Stacks.length = 2 ∧
      (((Profile.mk []).Add ⟨9223372036854775807, some ["f"], true⟩).Add
          ⟨1, some ["f"], true⟩).Stacks = [⟨-9223372036854775808, some ["f"], true⟩] := by
  decide

/-- C8 (amended): for every two samples a and b with non-nil frame slices, added
in that order to the empty profile: if they have equal frames and the same cpu
flag, the profile has exactly one element, with that identity and duration
a.duration + b.duration reduced to int64 (which is a.duration + b.duration when
that sum lies in the int64 range); otherwise the profile has exactly two
elements, a followed by b. -/
theorem C8_merge (a b : StackTrace) (ha : a.Frames ≠ none) (hb : b.Frames ≠ none) :
    (a.Frames = b.Frames ∧ a.CPU = b.CPU →
        (((Profile.mk []).Add a).Add b).Stacks =
            [⟨wrap64 (a.Duration + b.Duration), a.Frames, a.CPU⟩] ∧
          (-9223372036854775808 ≤ a.Duration + b.Duration →
            a.Duration + b.Duration < 9223372036854775808 →
            (((Profile.mk []).Add a).Add b).Stacks =
              [⟨a.Duration + b.Duration, a.Frames, a.CPU⟩])) ∧
      (¬ (a.Frames = b.Frames ∧ a.CPU = b.CPU) →
        (((Profile.mk []).Add a).Add b).Stacks = [a, b]) := by
  obtain ⟨fa, hfa⟩ := Option.ne_none_iff_exists'.mp ha
  obtain ⟨fb, hfb⟩ := Option.ne_none_iff_exists'.mp hb
  have hca := Copy_of_Frames hfa
  have hcb := Copy_of_Frames hfb
  have hstk : (((Profile.mk []).Add a).Add b).Stacks = addStacks [a] b := by
    simp [Profile.Add, addStacks, hca]
  rw [hstk]
  constructor
  · intro h
    have he : a.Equal b = true := (Equal_iff a b).mpr h
    have h1 : addStacks [a] b = [⟨wrap64 (a.Duration + b.Duration), a.Frames, a.CPU⟩] := by
      simp [addStacks, he, StackTrace.setDuration]
    refine ⟨h1, fun hlo hhi => ?_⟩
    rw [h1]
    have hw : wrap64 (a.Duration + b.Duration) = a.Duration + b.Duration := by
      unfold wrap64
      omega
    rw [hw]
  · intro h
    have he : a.Equal b = false := by
      rw [← Bool.not_eq_true, Equal_iff]
      exact h
    simp [addStacks, he, hcb]

/-- C8 (witness): the amended statement at two samples `f` of 3 ns and 4 ns. -/
theorem C8_merge_witness :
    (((Profile.mk []).Add ⟨3, some ["f"], true⟩).Add ⟨4, some ["f"], true⟩).Stacks =
      [⟨7, some ["f"], true⟩] :=
  ((C8_merge ⟨3, some ["f"], true⟩ ⟨4, some ["f"], true⟩ (by decide) (by decide)).1
    ⟨rfl, rfl⟩).2 (by decide) (by decide)

/-! ### C9 -/

/-- C9 (counterexample): adding a sample of 1 ns to a profile whose only element
has the same identity and duration 2^63 - 1 leaves a total of -2^63, not 2^63. -/
theorem C9_add_conservation_fails_on_overflow :
    totalDur ((Profile.mk [⟨9223372036854775807, some [], false⟩]).Add
        ⟨1, some [], false⟩).Stacks = -9223372036854775808 ∧
      totalDur (Profile.mk [⟨9223372036854775807, some [], false⟩]).Stacks + 1 =
        9223372036854775808 ∧
      totalDur ((Profile.mk [⟨9223372036854775807, some [], false⟩]).Add
          ⟨1, some [], false⟩).Stacks ≠
        totalDur (Profile.mk [⟨9223372036854775807, some [], false⟩]).Stacks + 1 := by
  decide

/-- C9 (amended): for every profile p and sample s such that the absolute values
of the durations of p's elements and of s sum to less than 2^63 ns, the sum of
the element durations after p.Add(s) is the sum before plus s.duration; hence
for every sequence of samples whose durations' absolute values sum to less than
2^63 ns, the profile built from the empty one by adding them in turn has element
durations summing to the sum of the samples' durations. -/
theorem C9_add_conservation (p : Profile) (s : StackTrace) (l : List StackTrace)
    (hp : absTotal p.Stacks + |s.Duration| < 9223372036854775808)
    (hl : absTotal l < 9223372036854775808) :
    totalDur (p.Add s).Stacks = totalDur p.Stacks + s.Duration ∧
      totalDur (l.foldl (fun q x => q.Add x) (Profile.mk [])).Stacks = totalDur l := by
  constructor
  · exact (addStacks_total p.Stacks s hp).1
  · have h1 := (foldl_Add_total l ⟨[]⟩ (by simpa using hl)).1
    simpa using h1

/-- C9 (witness): the amended statement at the profile of `main`'s trace, the
sample `main;workA` of 13 ms and the list of `main`'s three segments. -/
theorem C9_add_conservation_witness :
    totalDur ((perfectWallclock demoTrace).Add ⟨13 * Millisecond, some ["main", "workA"],
        true⟩).Stacks = 113 * Millisecond ∧
      totalDur (demoTrace.Calls.foldl (fun q x => q.Add x) (Profile.mk [])).Stacks =
        100 * Millisecond := by
  have h := C9_add_conservation (perfectWallclock demoTrace)
    ⟨13 * Millisecond, some ["main", "workA"], true⟩ demoTrace.Calls (by decide) (by decide)
  exact ⟨h.1.trans (by decide), h.2.trans (by decide)⟩

/-! ### C10 -/

/-- C10 (counterexample): on the trace of two segments of 2^62 ns each (both
non-negative) and at the offset 2^62 + 1, index 1 is the least index whose exact
cumulative end time, 2^63, reaches the offset, yet `Sample` returns nil: its
running int64 timestamp has wrapped to -2^63. -/
theorem C10_sample_fails_on_overflow :
    (∀ s ∈ overflowTrace.Calls, 0 ≤ s.Duration) ∧
      totalDur (overflowTrace.Calls.take 1) < 4611686018427387905 ∧
      (4611686018427387905 : Int) ≤ totalDur (overflowTrace.Calls.take 2) ∧
      overflowTrace.Sample 4611686018427387905 = none := by
  decide

/-- C10 (amended): for every execution trace with non-negative segment durations
whose total duration is below 2^63 ns, and every offset, `Sample(offset)` returns
the segment at the least index i such that offset <= d_0 + ... + d_i, and returns
no result when no such index exists; in particular it returns no result whenever
the offset exceeds the total trace duration. -/
theorem C10_sample_spec (e : ExecutionTrace) (offset : Int)
    (hnn : ∀ s ∈ e.Calls, 0 ≤ s.Duration)
    (hB : totalDur e.Calls < 9223372036854775808) :
    (∀ i, i < e.Calls.length → offset ≤ totalDur (e.Calls.take (i + 1)) →
        (∀ j, j < i → totalDur (e.Calls.take (j + 1)) < offset) →
        e.Sample offset = e.Calls[i]?) ∧
      ((∀ i, i < e.Calls.length → totalDur (e.Calls.take (i + 1)) < offset) →
        e.Sample offset = none) ∧
      (totalDur e.Calls < offset → e.Sample offset = none) := by
  have h := sampleFrom_spec e.Calls 0 offset hnn (le_refl 0) (by omega)
  simp only [zero_add] at h
  refine ⟨h.1, h.2, fun hlt => h.2 (fun i _ => ?_)⟩
  have := totalDur_take_le hnn (i + 1)
  omega

/-- C10 (witness): on the trace of `main`'s three segments, the offset 38 ms,
which is exactly the end of the second segment, resolves to that segment, and the
offset 100 ms + 1 ns has no result. -/
theorem C10_sample_spec_witness :
    demoTrace.Sample (38 * Millisecond) = some ⟨25 * Millisecond, some ["main", "workB"], true⟩ ∧
      demoTrace.Sample (100 * Millisecond + 1) = none :=
  ⟨(C10_sample_spec demoTrace (38 * Millisecond) (by decide) (by decide)).1 1
      (by decide) (by decide) (by decide),
    (C10_sample_spec demoTrace (100 * Millisecond + 1) (by decide) (by decide)).2.2
      (by decide)⟩

/-! ### C11 -/

/-- C11 (counterexample): with the target 0 and the pool of one segment of 5 ns,
`Repeat` appends the segment before it compares, so the trace lasts 5 ns, which
is not below 0 + 5; and with the target 2^63 - 1 ns and the pool of one segment
of 2^62 ns (positive, non-empty) the int64 offset wraps around and `Repeat`
never returns. -/
theorem C11_overshoot_fails :
    Repeat 1 0 [⟨5, some ["main"], true⟩] = some ⟨[⟨5, some ["main"], true⟩]⟩ ∧
      ¬ totalDur [(⟨5, some ["main"], true⟩ : StackTrace)] <
        0 + maxDur [⟨5, some ["main"], true⟩] ∧
      (∀ s ∈ stuckPool, 0 < s.Duration) ∧
      ¬ ∃ fuel e, Repeat fuel 9223372036854775807 stuckPool = some e :=
  ⟨by decide, by decide, by decide, Repeat_stuckPool⟩

/-- C11 (amended): for every target duration D and every non-empty pool of
segments with positive (int64) durations such that D plus the largest pool
duration is at most 2^63 ns, `Repeat(D, pool)` terminates and returns a trace
whose total duration T satisfies D <= T and, when D is positive,
T < D + max(durations of the pool segments). -/
theorem C11_repeat_overshoot (D : Int) (pool : List StackTrace) (hne : pool ≠ [])
    (hpos : ∀ s ∈ pool, 0 < s.Duration)
    (hty : ∀ s ∈ pool, s.Duration < 9223372036854775808)
    (hov : D + maxDur pool ≤ 9223372036854775808) :
    (∃ fuel e, Repeat fuel D pool = some e) ∧
      ∀ fuel e, Repeat fuel D pool = some e →
        D ≤ totalDur e.Calls ∧ (0 < D → totalDur e.Calls < D + maxDur pool) := by
  have h := Repeat_spec D pool hne hpos hty hov
  refine ⟨h.1, fun fuel e he => ?_⟩
  have hr := h.2 fuel e he
  exact ⟨hr.2.2.1, fun hD => RepeatResult_overshoot D pool e.Calls hne hD hr⟩

/-- C11 (witness): the amended statement at the pool of `main` and the target
150 ms, where `Repeat` returns six segments that last 200 ms. -/
theorem C11_repeat_overshoot_witness :
    Repeat 2 (150 * Millisecond) demoTrace.Calls =
        some ⟨demoTrace.Calls ++ demoTrace.Calls⟩ ∧
      150 * Millisecond ≤ totalDur (demoTrace.Calls ++ demoTrace.Calls) ∧
      totalDur (demoTrace.Calls ++ demoTrace.Calls) <
        150 * Millisecond + maxDur demoTrace.Calls :=
  ⟨by decide,
    ((C11_repeat_overshoot (150 * Millisecond) demoTrace.Calls (by decide) (by decide)
      (by decide) (by decide)).2 2 ⟨demoTrace.Calls ++ demoTrace.Calls⟩ (by decide)).1,
    ((C11_repeat_overshoot (150 * Millisecond) demoTrace.Calls (by decide) (by decide)
      (by decide) (by decide)).2 2 ⟨demoTrace.Calls ++ demoTrace.Calls⟩ (by decide)).2
      (by decide)⟩

/-! ### C12 -/

/-- C12 (counterexample): for the pool [13ms on-CPU, 25ms on-CPU, 62ms off-CPU]
and the target 100ms, `Repeat` returns within its first round over the pool: the
trace is the pool itself, three segments, not seven or more. -/
theorem C12_repeat_demo_is_not_two_cycles :
    Repeat 1 (100 * Millisecond) demoTrace.Calls = some demoTrace ∧
      demoTrace.Calls.length = 3 ∧ ¬ 7 ≤ demoTrace.Calls.length := by
  decide

/-- C12 (amended): for the pool [13ms on-CPU, 25ms on-CPU, 62ms off-CPU] and the
target 100ms, the trace returned by `Repeat` consists of exactly one full cycle
of the pool (three segments), with cumulative duration exactly 100ms, which is
>= 100ms. -/
theorem C12_repeat_demo :
    Repeat 1 (100 * Millisecond) demoTrace.Calls = some demoTrace ∧
      demoTrace.Calls =
        [⟨13 * Millisecond, some ["main", "workA"], true⟩,
          ⟨25 * Millisecond, some ["main", "workB"], true⟩,
          ⟨62 * Millisecond, some ["main", "sleep"], false⟩] ∧
      totalDur demoTrace.Calls = 100 * Millisecond := by
  decide

/-! ### C13 -/

/-- C13 (counterexample): with the target 2^63 - 1 ns and the pool of one segment
of 2^62 ns (positive, non-empty), two tiled segments are the least count whose
exact total, 2^63 ns, reaches the target, yet `Repeat` never returns: its int64
offset wraps to -2^63 at the second segment. -/
theorem C13_tiling_fails_on_overflow :
    (∀ s ∈ stuckPool, 0 < s.Duration) ∧
      totalDur stuckPool < 9223372036854775807 ∧
      (9223372036854775807 : Int) ≤ totalDur (stuckPool ++ stuckPool) ∧
      ¬ ∃ fuel e, Repeat fuel 9223372036854775807 stuckPool = some e :=
  ⟨by decide, by decide, by decide, Repeat_stuckPool⟩

/-- C13 (amended): for every target duration D and every non-empty pool of
segments with positive (int64) durations such that D plus the largest pool
duration is at most 2^63 ns, `Repeat(D, pool)` returns a trace of some length
n >= 1 whose i-th segment is pool[i mod len(pool)] for every i < n, and n is the
least positive count for which the sum of the first n tiled durations is >= D. -/
theorem C13_repeat_tiling (D : Int) (pool : List StackTrace) (hne : pool ≠ [])
    (hpos : ∀ s ∈ pool, 0 < s.Duration)
    (hty : ∀ s ∈ pool, s.Duration < 9223372036854775808)
    (hov : D + maxDur pool ≤ 9223372036854775808) :
    (∃ fuel e, Repeat fuel D pool = some e) ∧
      ∀ fuel e, Repeat fuel D pool = some e →
        1 ≤ e.Calls.length ∧
          (∀ i, i < e.Calls.length → e.Calls[i]? = pool[i % pool.length]?) ∧
          D ≤ totalDur e.Calls ∧
          (∀ m, 1 ≤ m → m < e.Calls.length → totalDur (e.Calls.take m) < D) :=
  Repeat_spec D pool hne hpos hty hov

/-- C13 (witness): the amended statement at the pool of `main` and the target
150 ms. -/
theorem C13_repeat_tiling_witness :
    (∃ fuel e, Repeat fuel (150 * Millisecond) demoTrace.Calls = some e) ∧
      ∀ fuel e, Repeat fuel (150 * Millisecond) demoTrace.Calls = some e →
        1 ≤ e.Calls.length ∧
          (∀ i, i < e.Calls.length →
            e.Calls[i]? = demoTrace.Calls[i % demoTrace.Calls.length]?) ∧
          150 * Millisecond ≤ totalDur e.Calls ∧
          (∀ m, 1 ≤ m → m < e.Calls.length →
            totalDur (e.Calls.take m) < 150 * Millisecond) :=
  C13_repeat_tiling (150 * Millisecond) demoTrace.Calls (by decide) (by decide) (by decide)
    (by decide)

/-! ### C14 -/

/-- C14 (counterexample): called with the empty pool and the target 100ms,
`Repeat` has not returned after a thousand rounds of its outer loop, and it
returns after no number of rounds: nothing rejects the empty pool. -/
theorem C14_empty_pool_is_not_rejected :
    Repeat 1000 (100 * Millisecond) [] = none ∧
      ¬ ∃ fuel e, Repeat fuel (100 * Millisecond) [] = some e := by
  refine ⟨repeatLoop_nil _ _ _ _, ?_⟩
  rintro ⟨fuel, e, h⟩
  rw [Repeat, repeatLoop_nil] at h
  exact Option.noConfusion h

/-- C14 (amended): for every target duration D, `Repeat(D, pool)` called with an
empty pool never returns: no check rejects the empty pool, each round of the
outer loop leaves the trace and the offset unchanged. -/
theorem C14_empty_pool_loops (duration : Int) (fuel : Nat) :
    Repeat fuel duration [] = none ∧
      repeatPass duration [] [] 0 = ([], 0, false) :=
  ⟨repeatLoop_nil _ _ _ _, rfl⟩

/-! ### C15 -/

/-- C15 (counterexample): in the trace of an on-CPU segment of 10 ms followed by
an on-CPU segment of 1 ms (positive durations), the second segment is shorter
than one sampling period, yet the probe offset 1 * period = 10101010 ns resolves
via `Sample` to it, and the profile of the "Node.js Wallclock Profiler" charges
it one full period.  And in the trace of an on-CPU segment `main;a` of 5 ms
followed by an off-CPU segment of 9223372036842086790 ns (positive durations,
total below 2^63 ns) no probe offset k * period (k >= 1) resolves to the first
segment, yet the profiler, whose int64 offset wraps around at its probe
913113840780, records a sample for it before it returns at its probe
2739341522339. -/
theorem C15_short_segment_is_sampled :
    ((∀ s ∈ shortSegmentTrace.Calls, 0 < s.Duration) ∧
      (1 * Millisecond < nodePeriod) ∧
      shortSegmentTrace.SampleIndex (1 * nodePeriod) = some 1 ∧
      shortSegmentTrace.Sample (1 * nodePeriod) =
        some ⟨1 * Millisecond, some ["main", "workB"], true⟩ ∧
      nodeProfile 2 shortSegmentTrace =
        some ⟨[⟨10101010, some ["main", "workB"], true⟩]⟩) ∧
    ((∀ s ∈ wrapProbeTrace.Calls, 0 < s.Duration) ∧
      totalDur wrapProbeTrace.Calls < 9223372036854775808 ∧
      (¬ ∃ k : Nat, 1 ≤ k ∧ wrapProbeTrace.SampleIndex ((k : Int) * nodePeriod) = some 0) ∧
      ∃ l, nodeSamples 2739341522339 wrapProbeTrace = some l ∧
        (⟨10101010, some ["main", "a"], true⟩ : StackTrace) ∈ l) := by
  refine ⟨by decide, by decide, by decide, ?_, nodeSamples_wrapProbeTrace⟩
  rintro ⟨k, hk, h⟩
  exact SampleIndex_wrapProbeTrace k hk h

/-- C15 (amended): for every execution trace with positive segment durations and
total duration T such that the probe offset does not overflow, that is
(K + 1) * period < 2^63 with K = floor(T / period) and period = 1s/99: the
"Node.js Wallclock Profiler" returns at its probe K + 1; the samples it records
are, in order, the copies with duration one period of the segments at the
positions `probeIndices e K`, the positions of the on-CPU segments to which
`Sample` resolves the probe offsets k * period, k = 1 .. K; its profile is the
result of adding these samples and its durations sum to one period per recorded
sample.  A probe offset k * period (k >= 1) resolves to the segment at position
i only if it lands inside it (after its start, up to and including its end).  So
a segment that no periodic probe lands inside is resolved by no probe offset and
no sample is recorded for it: it contributes zero; and a segment shorter than
one sampling period is resolved by at most one probe offset and has at most one
sample recorded for it: it contributes at most one period. -/
theorem C15_unprobed_segment_contributes_zero (e : ExecutionTrace) (K i : Nat)
    (hpos : ∀ s ∈ e.Calls, 0 < s.Duration)
    (hK : (K : Int) = totalDur e.Calls / nodePeriod)
    (hov : ((K : Int) + 1) * nodePeriod < 9223372036854775808) :
    nodeSamples (K + 1) e = some ((probeIndices e K).filterMap (sampleAt e)) ∧
      (∃ p, nodeProfile (K + 1) e = some p ∧
        p = ((probeIndices e K).filterMap (sampleAt e)).foldl (fun q s => q.Add s)
          (Profile.mk []) ∧
        totalDur p.Stacks = nodePeriod * (probeIndices e K).length) ∧
      (∀ offset, e.Sample offset = (e.SampleIndex offset).bind (fun j => e.Calls[j]?)) ∧
      (∀ k j : Nat, probeIndex e k = some j →
        e.SampleIndex ((k : Int) * nodePeriod) = some j ∧
          ∃ s, e.Calls[j]? = some s ∧ s.CPU = true) ∧
      (∀ k : Nat, 1 ≤ k → e.SampleIndex (k * nodePeriod) = some i →
        totalDur (e.Calls.take i) < k * nodePeriod ∧
          k * nodePeriod ≤ totalDur (e.Calls.take (i + 1))) ∧
      ((∀ k : Nat, 1 ≤ k → ¬ (totalDur (e.Calls.take i) < k * nodePeriod ∧
          k * nodePeriod ≤ totalDur (e.Calls.take (i + 1)))) →
        (∀ k : Nat, 1 ≤ k → e.SampleIndex (k * nodePeriod) ≠ some i) ∧
          i ∉ probeIndices e K) ∧
      (∀ s, e.Calls[i]? = some s → s.Duration < nodePeriod →
        (∀ k k2 : Nat, 1 ≤ k → 1 ≤ k2 → e.SampleIndex (k * nodePeriod) = some i →
          e.SampleIndex (k2 * nodePeriod) = some i → k = k2) ∧
          (probeIndices e K).count i ≤ 1) := by
  have hnn : ∀ s ∈ e.Calls, 0 ≤ s.Duration := fun s hs => le_of_lt (hpos s hs)
  have hT0 := totalDur_nonneg hnn
  have hK1 : (K : Int) * nodePeriod ≤ totalDur e.Calls := by
    rw [nodePeriod_eq] at hK ⊢
    omega
  have hK2 : totalDur e.Calls < ((K : Int) + 1) * nodePeriod := by
    rw [nodePeriod_eq] at hK ⊢
    omega
  have hB : totalDur e.Calls < 9223372036854775808 := lt_trans hK2 hov
  have hzero : ((0 : Nat) : Int) * nodePeriod = 0 := by simp
  have hlog : nodeSamples (K + 1) e = some (probeSamples e K) := by
    have h := nodeLoop_exact (fun l s => l ++ [s]) e K hnn hK1 hK2 hov K 0 (by omega) []
    rw [hzero, foldl_append_singleton, List.nil_append] at h
    exact h
  have hprof : nodeProfile (K + 1) e =
      some ((probeSamples e K).foldl (fun q s => q.Add s) (Profile.mk [])) := by
    have h := nodeLoop_exact Profile.Add e K hnn hK1 hK2 hov K 0 (by omega) ⟨[]⟩
    rw [hzero] at h
    exact h
  have htotal := probeProfile_total e K hK1 hB
  rw [probeSamples_length] at htotal
  rw [probeSamples_eq_indices] at hlog hprof htotal
  have hinside := SampleIndex_inside e i hnn hB
  refine ⟨hlog, ⟨_, hprof, rfl, htotal⟩, fun offset => sampleFrom_eq_index 0 e.Calls offset,
    fun k j h => probeIndex_some e k j h, hinside.1, fun hno => ⟨?_, ?_⟩,
    fun s hs hshort => ⟨hinside.2 s hs hshort, ?_⟩⟩
  · exact fun k hk h => hno k hk (hinside.1 k hk h)
  · intro hmem
    obtain ⟨k, hk, hki⟩ := List.mem_filterMap.mp hmem
    have hr := List.mem_range'_1.mp hk
    exact hno k hr.1 (hinside.1 k hr.1 (probeIndex_some e k i hki).1)
  · apply count_filterMap_le_one (probeIndex e) i (List.range' 1 K) (List.nodup_range' 1 K)
    intro k hk k2 hk2 h1 h2
    have hr := List.mem_range'_1.mp hk
    have hr2 := List.mem_range'_1.mp hk2
    exact hinside.2 s hs hshort k k2 hr.1 hr2.1 (probeIndex_some e k i h1).1
      (probeIndex_some e k2 i h2).1

/-- C15 (witness): the amended statement at the trace of `main`'s three segments
(K = 9): the probes record one sample for the first segment and two for the
second, none for the off-CPU third one, and the profiler returns with the copies
of these segments. -/
theorem C15_unprobed_segment_contributes_zero_witness :
    probeIndices demoTrace 9 = [0, 1, 1] ∧
      nodeSamples (9 + 1) demoTrace =
        some ((probeIndices demoTrace 9).filterMap (sampleAt demoTrace)) :=
  ⟨by decide,
    (C15_unprobed_segment_contributes_zero demoTrace 9 2 (by decide) (by decide)
      (by decide)).1⟩

/-! ### C16 -/

/-- C16 (failing input): a stack trace with nil frames and its own `Copy` (empty,
non-nil frames) have frame sequences of the same length, element-wise equal, and
the same cpu flag, yet `Equal` answers false: `reflect.DeepEqual` tells the nil
slice from the empty one. -/
theorem C16_Equal_fails_on_nil_frames :
    nilSample.Equal nilSample.Copy = false ∧
      (nilSample.Frames.getD []).length = (nilSample.Copy.Frames.getD []).length ∧
      nilSample.Frames.getD [] = nilSample.Copy.Frames.getD [] ∧
      nilSample.CPU = nilSample.Copy.CPU := by
  decide

/-! ### C17 -/

/-- C17: for every profile, after `Sort` the elements are a permutation of the
elements before the call, and their durations are in non-increasing order from
first to last. -/
theorem C17_sort_perm_sorted (p : Profile) :
    p.Sort.Stacks.Perm p.Stacks ∧
      p.Sort.Stacks.Pairwise (fun a b => a.Duration ≥ b.Duration) := by
  haveI : IsTotal StackTrace
      (fun a b => decide (b.Duration > a.Duration) = false) :=
    ⟨fun a b => by simp only [decide_eq_false_iff_not, gt_iff_lt, not_lt]; omega⟩
  haveI : IsTrans StackTrace
      (fun a b => decide (b.Duration > a.Duration) = false) :=
    ⟨fun a b c => by simp only [decide_eq_false_iff_not, gt_iff_lt, not_lt]; omega⟩
  constructor
  · exact List.perm_insertionSort _ _
  · have h := List.sorted_insertionSort
      (fun a b : StackTrace => decide (b.Duration > a.Duration) = false) p.Stacks
    refine List.Pairwise.imp ?_ h
    intro a b hab
    simp only [decide_eq_false_iff_not, gt_iff_lt, not_lt] at hab
    exact hab

/-- C17 (witness): `Sort` on the profile of the "Perfect Wallclock Profiler" for
`main`'s three segments puts 62 ms first, then 25 ms, then 13 ms. -/
theorem C17_sort_perm_sorted_witness :
    (perfectWallclock demoTrace).Sort.Stacks =
        [⟨62 * Millisecond, some ["main", "sleep"], false⟩,
          ⟨25 * Millisecond, some ["main", "workB"], true⟩,
          ⟨13 * Millisecond, some ["main", "workA"], true⟩] ∧
      (perfectWallclock demoTrace).Sort.Stacks.Perm (perfectWallclock demoTrace).Stacks :=
  ⟨by decide, (C17_sort_perm_sorted (perfectWallclock demoTrace)).1⟩

/-! ### C18 -/

/-- C18: for every execution trace with non-negative segment durations and total
duration T such that the probe offset does not overflow, that is
(floor(T / period) + 1) * period < 2^63 with period = 1s/99, and with
K = floor(T / period): the "Node.js Wallclock Profiler" probes exactly the
offsets k * period for k = 1 .. K, each of which finds a segment, and returns at
the probe K + 1, the first past T (with K probes or fewer it has not returned);
the samples it adds are those of the probes 1 .. K; the returned profile has
pairwise different identities, the duration of each element is the period times
the number of those probes for which `Sample(k * period)` is an on-CPU segment
of the element's identity, every identity so hit has its element, and the
durations sum to at most K * period <= T. -/
theorem C18_fixed_rate_probes (e : ExecutionTrace) (K : Nat)
    (hnn : ∀ s ∈ e.Calls, 0 ≤ s.Duration)
    (hK : (K : Int) = totalDur e.Calls / nodePeriod)
    (hov : ((K : Int) + 1) * nodePeriod < 9223372036854775808) :
    (∀ k : Nat, 1 ≤ k → k ≤ K → ∃ s, e.Sample (k * nodePeriod) = some s) ∧
      e.Sample (((K + 1 : Nat) : Int) * nodePeriod) = none ∧
      (∀ fuel, fuel ≤ K → nodeProfile fuel e = none) ∧
      nodeSamples (K + 1) e = some (probeSamples e K) ∧
      ∃ p, nodeProfile (K + 1) e = some p ∧ p.Unique ∧
        (∀ x ∈ p.Stacks,
          1 ≤ probeHits e K x ∧ x.Duration = nodePeriod * probeHits e K x) ∧
        (∀ (k : Nat) (s : StackTrace), 1 ≤ k → k ≤ K →
          e.Sample (k * nodePeriod) = some s → s.CPU = true →
          ∃ x ∈ p.Stacks, x.Equal s.Copy = true) ∧
        totalDur p.Stacks ≤ (K : Int) * nodePeriod ∧
        (K : Int) * nodePeriod ≤ totalDur e.Calls := by
  have hT0 := totalDur_nonneg hnn
  have hK1 : (K : Int) * nodePeriod ≤ totalDur e.Calls := by
    rw [nodePeriod_eq] at hK ⊢
    omega
  have hK2 : totalDur e.Calls < ((K : Int) + 1) * nodePeriod := by
    rw [nodePeriod_eq] at hK ⊢
    omega
  have hB : totalDur e.Calls < 9223372036854775808 := lt_trans hK2 hov
  have hzero : ((0 : Nat) : Int) * nodePeriod = 0 := by simp
  have hsome : ∀ k : Nat, 1 ≤ k → k ≤ K → ∃ s, e.Sample (k * nodePeriod) = some s := by
    intro k hk1 hk2
    apply Sample_some_of_le e _ hnn hB
    · rw [nodePeriod_eq]
      omega
    · rw [nodePeriod_eq] at hK1 ⊢
      have : (k : Int) ≤ K := by exact_mod_cast hk2
      omega
  have hnone : e.Sample (((K + 1 : Nat) : Int) * nodePeriod) = none := by
    cases hs : e.Sample (((K + 1 : Nat) : Int) * nodePeriod) with
    | none => rfl
    | some s =>
      have := Sample_some_le e _ s hnn hB hs
      push_cast at this
      omega
  have hshort : ∀ fuel, fuel ≤ K → nodeProfile fuel e = none := by
    intro fuel hf
    have h := nodeLoop_short Profile.Add e K hnn hK1 hK2 hov fuel 0 (by omega) ⟨[]⟩
    rw [hzero] at h
    exact h
  have hlog : nodeSamples (K + 1) e = some (probeSamples e K) := by
    have h := nodeLoop_exact (fun l s => l ++ [s]) e K hnn hK1 hK2 hov K 0 (by omega) []
    rw [hzero, foldl_append_singleton, List.nil_append] at h
    exact h
  have hprof : nodeProfile (K + 1) e =
      some ((probeSamples e K).foldl (fun q s => q.Add s) (Profile.mk [])) := by
    have h := nodeLoop_exact Profile.Add e K hnn hK1 hK2 hov K 0 (by omega) ⟨[]⟩
    rw [hzero] at h
    exact h
  obtain ⟨hu, hel, hhit, hsum⟩ := probeProfile_spec e K hK1 hB _ rfl
  refine ⟨hsome, hnone, hshort, hlog, _, hprof, hu, hel, ?_, hsum, hK1⟩
  intro k s hk1 hk2 hs hc
  have hps : probeSample e k = some (s.Copy.setDuration nodePeriod) := by
    simp [probeSample, hs, hc]
  have hmem : s.Copy.setDuration nodePeriod ∈ probeSamples e K := by
    unfold probeSamples
    exact List.mem_filterMap.mpr ⟨k, List.mem_range'_1.mpr ⟨hk1, by omega⟩, hps⟩
  obtain ⟨y, hy, hyeq⟩ := hhit _ hmem
  exact ⟨y, hy, hyeq⟩

/-- C18 (witness): the statement at the trace of `main`'s three segments, where
100 ms hold K = 9 periods: the profiler returns at its tenth probe with one
period for `main;workA` and two for `main;workB`. -/
theorem C18_fixed_rate_probes_witness :
    nodeSamples (9 + 1) demoTrace = some (probeSamples demoTrace 9) ∧
      nodeProfile (9 + 1) demoTrace =
        some ⟨[⟨10101010, some ["main", "workA"], true⟩,
          ⟨20202020, some ["main", "workB"], true⟩]⟩ :=
  ⟨(C18_fixed_rate_probes demoTrace 9 (by decide) (by decide) (by decide)).2.2.2.1,
    by decide⟩

/-! ### C19 -/

/-- C19: for every trace of two on-CPU segments with different stack identities
(frames compared element by element) and durations a and b with 0 < a < 10ms,
0 < b < 10ms and a + b >= 10ms, with any off-CPU segments between the two, the
"Go CPU Profiler" adds exactly one sample, a copy of the second segment with
duration 10ms: the profile has exactly one element, with the second segment's
frames and cpu flag and duration exactly 10ms, and the first segment's identity
does not appear. -/
theorem C19_accumulator_persists (s1 s2 : StackTrace) (mid : List StackTrace)
    (h1 : s1.CPU = true) (h2 : s2.CPU = true) (hmid : ∀ s ∈ mid, s.CPU = false)
    (ha0 : 0 < s1.Duration) (ha : s1.Duration < 10 * Millisecond)
    (hb0 : 0 < s2.Duration) (hb : s2.Duration < 10 * Millisecond)
    (hab : s1.Duration + s2.Duration ≥ 10 * Millisecond)
    (hdiff : frameKey s1 ≠ frameKey s2) :
    goSamples ⟨s1 :: (mid ++ [s2])⟩ = [s2.Copy.setDuration (10 * Millisecond)] ∧
      goProfile ⟨s1 :: (mid ++ [s2])⟩ = ⟨[s2.Copy.setDuration (10 * Millisecond)]⟩ ∧
      (∀ x ∈ (goProfile ⟨s1 :: (mid ++ [s2])⟩).Stacks,
        frameKey x = frameKey s2 ∧ x.Duration = 10 * Millisecond ∧
          frameKey x ≠ frameKey s1) := by
  have hP : goPeriod = 10 * Millisecond := by decide
  rw [← hP] at ha hb hab ⊢
  have hs : goSamples ⟨s1 :: (mid ++ [s2])⟩ = [s2.Copy.setDuration goPeriod] := by
    simp only [goSamples]
    rw [goFold_two_segments _ _ s1 s2 mid h1 h2 hmid ha0 ha hb0 hb hab]
    rfl
  have hp : goProfile ⟨s1 :: (mid ++ [s2])⟩ = ⟨[s2.Copy.setDuration goPeriod]⟩ := by
    simp only [goProfile]
    rw [goFold_two_segments _ _ s1 s2 mid h1 h2 hmid ha0 ha hb0 hb hab]
    rfl
  refine ⟨hs, hp, fun x hx => ?_⟩
  rw [hp, List.mem_singleton] at hx
  rw [hx]
  refine ⟨rfl, rfl, fun h => hdiff ?_⟩
  exact h.symm

/-- C19 (witness): the statement at the segments `main;workA` of 6 ms and
`main;workB` of 7 ms with the 62 ms sleep of `main` between them. -/
theorem C19_accumulator_persists_witness :
    goProfile ⟨⟨6 * Millisecond, some ["main", "workA"], true⟩ ::
        ([⟨62 * Millisecond, some ["main", "sleep"], false⟩] ++
          [⟨7 * Millisecond, some ["main", "workB"], true⟩])⟩ =
      ⟨[⟨10 * Millisecond, some ["main", "workB"], true⟩]⟩ :=
  (C19_accumulator_persists ⟨6 * Millisecond, some ["main", "workA"], true⟩
    ⟨7 * Millisecond, some ["main", "workB"], true⟩
    [⟨62 * Millisecond, some ["main", "sleep"], false⟩]
    rfl rfl (by decide) (by decide) (by decide) (by decide) (by decide) (by decide)
    (by decide)).2.1

/-! ### C20 -/

/-- C20: for every execution trace with non-negative (int64) segment durations,
the profile of the "Go CPU Profiler" is equal (same elements, same order, same
durations) to the profile built by the chunk-free reference, which walks the
segments in order with an accumulator starting at 0 and, for an on-CPU segment
of duration d, adds floor((acc + d) / 10ms) samples of 10ms with that segment's
identity and then sets acc to (acc + d) mod 10ms; and after each segment the
accumulator of the profiler is >= 0 and < 10ms. -/
theorem C20_chunking_is_invisible (e : ExecutionTrace)
    (hnn : ∀ s ∈ e.Calls, 0 ≤ s.Duration)
    (hty : ∀ s ∈ e.Calls, s.Duration < 9223372036854775808) :
    goPeriod = 10 * Millisecond ∧
      goProfile e = (e.Calls.foldl (chunkFreeStep Profile.Add) (⟨[]⟩, 0)).1 ∧
      goSamples e = (e.Calls.foldl (chunkFreeStep (fun l s => l ++ [s])) ([], 0)).1 ∧
      (∀ n, 0 ≤ ((e.Calls.take n).foldl (goStep Profile.Add) (⟨[]⟩, 0)).2 ∧
        ((e.Calls.take n).foldl (goStep Profile.Add) (⟨[]⟩, 0)).2 < 10 * Millisecond) := by
  have hP : goPeriod = 10 * Millisecond := by decide
  have hall : ∀ s ∈ e.Calls, 0 ≤ s.Duration ∧ s.Duration < 9223372036854775808 :=
    fun s hs => ⟨hnn s hs, hty s hs⟩
  refine ⟨hP, ?_, ?_, fun n => ?_⟩
  · simp only [goProfile]
    rw [(goFold_eq_chunkFree Profile.Add e.Calls ⟨[]⟩ 0 hall (le_refl 0) (by decide)).1]
  · simp only [goSamples]
    rw [(goFold_eq_chunkFree (fun l s => l ++ [s]) e.Calls [] 0 hall (le_refl 0)
      (by decide)).1]
  · have h := goFold_eq_chunkFree Profile.Add (e.Calls.take n) ⟨[]⟩ 0
      (fun s hs => hall s (List.mem_of_mem_take hs)) (le_refl 0) (by decide)
    rw [← hP]
    exact h.2

/-- C20 (witness): the statement at two rounds of `main`'s three segments, where
both the profiler and the reference add three samples for `main;workA` and four
for `main;workB`. -/
theorem C20_chunking_is_invisible_witness :
    goProfile demoTwice =
        (demoTwice.Calls.foldl (chunkFreeStep Profile.Add) (⟨[]⟩, 0)).1 ∧
      (demoTwice.Calls.foldl (chunkFreeStep Profile.Add) (⟨[]⟩, 0)).1 =
        ⟨[⟨30 * Millisecond, some ["main", "workA"], true⟩,
          ⟨40 * Millisecond, some ["main", "workB"], true⟩]⟩ :=
  ⟨(C20_chunking_is_invisible demoTwice (by decide) (by decide)).2.1, by decide⟩

end ProfilerSim
